import Mathlib

/-!
Verification of core behaviours of a Vue-style UI runtime (scheduler,
keep-alive cache, vnode creation, v-model desugaring, template optimizer and
HTML parser).  Each JavaScript module is shallowly embedded as executable Lean
definitions that mirror the source line by line; theorems then settle the
specification claims about those definitions.
-/

namespace VueSpec

/-! ## Association-list helpers

JavaScript object-style maps (`has`, `circular`, the keep-alive `cache`,
`data.on`, `data.attrs`) are embedded as insertion-ordered association lists.
`assocGet` is property lookup (`undefined` for a missing key), `assocSet` is
property assignment: it overwrites the value of an existing key in place and
otherwise appends the key, exactly like JS object insertion order. -/

def assocGet {κ α : Type} [DecidableEq κ] (l : List (κ × α)) (k : κ) : Option α :=
  match l with
  | [] => none
  | (k2, v) :: t => if k2 = k then some v else assocGet t k

def assocSet {κ α : Type} [DecidableEq κ] (l : List (κ × α)) (k : κ) (v : α) :
    List (κ × α) :=
  match l with
  | [] => [(k, v)]
  | (k2, v2) :: t => if k2 = k then (k2, v) :: t else (k2, v2) :: assocSet t k v

theorem assocGet_set_self {κ α : Type} [DecidableEq κ] (l : List (κ × α))
    (k : κ) (v : α) : assocGet (assocSet l k v) k = some v := by
  induction l with
  | nil => simp [assocGet, assocSet]
  | cons h t ih =>
    obtain ⟨k2, v2⟩ := h
    by_cases hk : k2 = k <;> simp [assocGet, assocSet, hk, ih]

theorem assocGet_set_other {κ α : Type} [DecidableEq κ] (l : List (κ × α))
    (k k2 : κ) (v : α)
    (h : k2 ≠ k) : assocGet (assocSet l k v) k2 = assocGet l k2 := by
  induction l with
  | nil => simp [assocGet, assocSet, Ne.symm h]
  | cons hd t ih =>
    obtain ⟨k3, v3⟩ := hd
    by_cases hk : k3 = k
    · subst hk
      simp [assocGet, assocSet, Ne.symm h]
    · by_cases hk2 : k3 = k2 <;> simp [assocGet, assocSet, hk, hk2, ih, h]

/-! ## Scheduler (src/unnamed/part_002)

The watcher queue.  A watcher is identified by its unique numeric `id`
(creation order); `queue` holds the pending watcher ids, `has` is the JS
`has` object (ids marked pending), `circular` the dev-mode re-entrancy
counters, and `index` the live loop index of `flushSchedulerQueue`.
What a watcher's `run()` does to the scheduler is abstracted as the list of
watcher ids it enqueues during that run; this behaviour is supplied as an
environment function of the watcher id and its run count so far.
`watcher.before` hooks, the `nextTick` machinery (modelled by the `waiting`
flag alone) and the activated/updated post-hooks do not touch the queue and
are omitted. -/

def MAX_UPDATE_COUNT : Nat := 100

structure SchedState where
  queue : List Nat
  has : List Nat
  circular : List (Nat × Nat)
  waiting : Bool
  flushing : Bool
  index : Nat
  deriving Repr, DecidableEq

/-- The scheduler state right after `resetSchedulerState` (also the initial
state): empty queue, empty pending set, not waiting, not flushing. -/
def resetSchedulerState (st : SchedState) : SchedState :=
  { st with queue := [], has := [], circular := [], waiting := false,
            flushing := false, index := 0 }

def initSchedState : SchedState :=
  ⟨[], [], [], false, false, 0⟩

/-- The while loop of the flushing branch of `queueWatcher`:
`let i = queue.length - 1; while (i > index && queue[i].id > watcher.id) i--`.
The counter argument is `i + 1` so that `0` encodes the JS value `i = -1`;
the function returns the JS insertion position `i + 1`. -/
def spliceLoop (queue : List Nat) (index id : Nat) : Nat → Nat
  | 0 => 0
  | j + 1 =>
    if index < j ∧ id < queue.getD j 0 then spliceLoop queue index id j
    else j + 1

/-- `queue.splice(pos, 0, id)`. -/
def spliceInsert (queue : List Nat) (pos id : Nat) : List Nat :=
  queue.take pos ++ id :: queue.drop pos

/-- `queueWatcher` (part_002 lines 175-211).  Skips ids already in `has`;
otherwise marks the id pending and either pushes it (not flushing) or splices
it after the current index in id-sorted position (flushing).  The
`nextTick(flushSchedulerQueue)` call is modelled by the `waiting` flag (the
async production path; the dev-only synchronous `!config.async` branch is not
modelled). -/
def queueWatcher (st : SchedState) (id : Nat) : SchedState :=
  if id ∈ st.has then st
  else
    let st1 := { st with has := id :: st.has }
    let st2 :=
      if !st1.flushing then { st1 with queue := st1.queue ++ [id] }
      else
        let pos := spliceLoop st1.queue st1.index id st1.queue.length
        { st1 with queue := spliceInsert st1.queue pos id }
    if !st2.waiting then { st2 with waiting := true } else st2

structure FlushOut where
  runs : List Nat
  warnedIds : List Nat
  updatedQueue : List Nat
  st : SchedState
  completed : Bool
  deriving Repr, DecidableEq

/-- The `for (index = 0; index < queue.length; index++)` loop of
`flushSchedulerQueue` (part_002 lines 92-116).  `beh id n` is the list of
watcher ids that the `n`-th run of watcher `id` enqueues via `queueWatcher`.
`runCounts` tracks how many times each id has run.  The loop is fueled; a
fuel-exhausted result is marked `completed := false` (the fuel-sufficiency
theorems below show real executions complete). -/
def flushLoop (beh : Nat → Nat → List Nat) :
    Nat → SchedState → List Nat → List (Nat × Nat) → FlushOut
  | 0, st, runs, _ => ⟨runs, [], st.queue, st, false⟩
  | fuel + 1, st, runs, runCounts =>
    if st.index < st.queue.length then
      let id := st.queue.getD st.index 0
      -- has[id] = null
      let st1 := { st with has := st.has.erase id }
      -- watcher.run(): its scheduler effect is the enqueues it performs
      let n := (assocGet runCounts id).getD 0
      let st2 := (beh id n).foldl queueWatcher st1
      let runCounts2 := assocSet runCounts id (n + 1)
      let runs2 := runs ++ [id]
      -- dev build: check and stop circular updates
      if id ∈ st2.has then
        let c := (assocGet st2.circular id).getD 0 + 1
        let st3 := { st2 with circular := assocSet st2.circular id c }
        if MAX_UPDATE_COUNT < c then
          -- warn('You may have an infinite update loop ...'); break
          ⟨runs2, [id], st3.queue, st3, true⟩
        else
          flushLoop beh fuel { st3 with index := st3.index + 1 } runs2 runCounts2
      else
        flushLoop beh fuel { st2 with index := st2.index + 1 } runs2 runCounts2
    else
      ⟨runs, [], st.queue, st, true⟩

/-- `flushSchedulerQueue` (part_002 lines 75-139): set `flushing`, sort the
queue ascending by id, run the loop, keep a copy of the queue
(`updatedQueue`), then `resetSchedulerState`.  The activated/updated hook
post-passes inspect component instances only and never touch the scheduler
state, so they have no effect in this model. -/
def flushSchedulerQueue (beh : Nat → Nat → List Nat) (fuel : Nat)
    (st : SchedState) : FlushOut :=
  let stA := { st with flushing := true }
  let stB := { stA with queue := stA.queue.insertionSort (· ≤ ·) }
  let r := flushLoop beh fuel stB [] []
  { r with st := resetSchedulerState r.st }

/-- Run behaviour that enqueues nothing (watchers whose `run` does not
invalidate any watcher). -/
def nilBeh : Nat → Nat → List Nat := fun _ _ => []

/-- Run behaviour where every run of a watcher re-enqueues that same
watcher (the runaway-update scenario). -/
def behSelf : Nat → Nat → List Nat := fun id _ => [id]

theorem spliceInsert_perm (queue : List Nat) (pos id : Nat) :
    (spliceInsert queue pos id).Perm (id :: queue) := by
  have h1 : (queue.take pos ++ id :: queue.drop pos).Perm
      (id :: (queue.take pos ++ queue.drop pos)) := List.perm_middle
  rw [List.take_append_drop] at h1
  exact h1

/-- Scheduler invariant holding between flushes and preserved by
`queueWatcher`: the queue has no duplicate ids, the pending set `has` has no
duplicates, and every queued id is marked pending. -/
def SchedInv (st : SchedState) : Prop :=
  st.queue.Nodup ∧ st.has.Nodup ∧ ∀ id ∈ st.queue, id ∈ st.has

theorem queueWatcher_mem (st : SchedState) (id : Nat) (h : id ∈ st.has) :
    queueWatcher st id = st := by
  unfold queueWatcher
  simp [h]

theorem queueWatcher_perm (st : SchedState) (id : Nat) (h : id ∉ st.has) :
    (queueWatcher st id).queue.Perm (id :: st.queue) ∧
    (queueWatcher st id).has = id :: st.has ∧
    (queueWatcher st id).index = st.index := by
  unfold queueWatcher
  simp only [h, if_neg, if_false]
  cases hf : st.flushing <;> cases hw : st.waiting <;>
    simp [hf, hw, spliceInsert_perm, List.perm_append_singleton]

theorem schedInv_queueWatcher (st : SchedState) (id : Nat) (h : SchedInv st) :
    SchedInv (queueWatcher st id) := by
  obtain ⟨hq, hh, hsub⟩ := h
  by_cases hid : id ∈ st.has
  · rw [queueWatcher_mem st id hid]
    exact ⟨hq, hh, hsub⟩
  · obtain ⟨hperm, hhas, _⟩ := queueWatcher_perm st id hid
    have hidq : id ∉ st.queue := fun hmem => hid (hsub id hmem)
    refine ⟨hperm.nodup_iff.mpr (List.nodup_cons.mpr ⟨hidq, hq⟩), ?_, ?_⟩
    · rw [hhas]
      exact List.nodup_cons.mpr ⟨hid, hh⟩
    · intro x hx
      rw [hhas]
      rcases List.mem_cons.mp (hperm.mem_iff.mp hx) with h1 | h1
      · simp [h1]
      · simp [hsub x h1]

theorem schedInv_foldl (calls : List Nat) (st : SchedState) (h : SchedInv st) :
    SchedInv (calls.foldl queueWatcher st) := by
  induction calls generalizing st with
  | nil => exact h
  | cons c t ih => exact ih _ (schedInv_queueWatcher _ _ h)

theorem schedInv_init : SchedInv initSchedState :=
  ⟨List.nodup_nil, List.nodup_nil, by simp [initSchedState]⟩

/-- With a run behaviour that enqueues nothing, the flush loop simply runs the
queue entries from the current index to the end, in order, and completes. -/
theorem flushLoop_nilBeh (fuel : Nat) :
    ∀ (st : SchedState) (runs : List Nat) (rc : List (Nat × Nat)),
      st.has.Nodup → st.queue.length - st.index < fuel →
      (flushLoop nilBeh fuel st runs rc).runs = runs ++ st.queue.drop st.index ∧
      (flushLoop nilBeh fuel st runs rc).updatedQueue = st.queue ∧
      (flushLoop nilBeh fuel st runs rc).completed = true := by
  induction fuel with
  | zero =>
    intro st runs rc _ hf
    omega
  | succ fuel ih =>
    intro st runs rc hh hf
    by_cases hidx : st.index < st.queue.length
    · have hdrop : st.queue.drop st.index =
          st.queue.getD st.index 0 :: st.queue.drop (st.index + 1) := by
        rw [List.drop_eq_getElem_cons hidx, List.getD_eq_getElem _ _ hidx]
      have hmem : st.queue.getD st.index 0 ∉
          st.has.erase (st.queue.getD st.index 0) := hh.not_mem_erase
      have ih2 := ih { st with has := st.has.erase (st.queue.getD st.index 0),
                               index := st.index + 1 }
        (runs ++ [st.queue.getD st.index 0])
        (assocSet rc (st.queue.getD st.index 0)
          ((assocGet rc (st.queue.getD st.index 0)).getD 0 + 1))
        (hh.erase _) (by show st.queue.length - (st.index + 1) < fuel; omega)
      simp only [flushLoop, hidx, if_true, nilBeh, List.foldl_nil, hmem,
        if_false] at ih2 ⊢
      rw [hdrop]
      refine ⟨?_, ?_, ?_⟩
      · have h3 := ih2.1
        rw [List.append_assoc] at h3
        exact h3
      · exact ih2.2.1
      · exact ih2.2.2
    · have hdrop : st.queue.drop st.index = [] :=
        List.drop_eq_nil_of_le (by omega)
      simp [flushLoop, hidx, hdrop]

/-- C1: between two flushes, enqueuing watchers any number of times leaves at
most one queue entry per watcher id, and the subsequent flush therefore runs
each watcher at most once. -/
theorem queueWatcher_dedup (calls : List Nat) (id : Nat) :
    ((calls.foldl queueWatcher initSchedState).queue.count id ≤ 1) ∧
    ((flushSchedulerQueue nilBeh
        ((calls.foldl queueWatcher initSchedState).queue.length + 1)
        (calls.foldl queueWatcher initSchedState)).runs.count id ≤ 1) := by
  obtain ⟨hq, hh, _⟩ := schedInv_foldl calls initSchedState schedInv_init
  have hcount : (calls.foldl queueWatcher initSchedState).queue.count id ≤ 1 :=
    List.nodup_iff_count_le_one.mp hq id
  refine ⟨hcount, ?_⟩
  set st := calls.foldl queueWatcher initSchedState with hst
  have hperm : ((st.queue.insertionSort (· ≤ ·))).Perm st.queue :=
    List.perm_insertionSort _ _
  have hrun := flushLoop_nilBeh (st.queue.length + 1)
    { st with flushing := true, queue := st.queue.insertionSort (· ≤ ·) } [] []
    hh (by simp [hperm.length_eq]; omega)
  unfold flushSchedulerQueue
  simp only at hrun ⊢
  rw [hrun.1]
  have hsub : ((st.queue.insertionSort (· ≤ ·)).drop st.index).Sublist
      (st.queue.insertionSort (· ≤ ·)) := List.drop_sublist _ _
  calc (([] : List Nat) ++
        (st.queue.insertionSort (· ≤ ·)).drop st.index).count id
      = ((st.queue.insertionSort (· ≤ ·)).drop st.index).count id := by simp
    _ ≤ (st.queue.insertionSort (· ≤ ·)).count id := hsub.count_le id
    _ = st.queue.count id := hperm.count_eq id
    _ ≤ 1 := hcount

theorem spliceLoop_le (queue : List Nat) (index id : Nat) :
    ∀ c, spliceLoop queue index id c ≤ c := by
  intro c
  induction c with
  | zero => simp [spliceLoop]
  | succ j ih =>
    by_cases hc : index < j ∧ id < queue.getD j 0
    · rw [spliceLoop, if_pos hc]
      omega
    · rw [spliceLoop, if_neg hc]

theorem spliceLoop_gt_index (queue : List Nat) (index id : Nat) :
    ∀ c, index < c → index < spliceLoop queue index id c := by
  intro c
  induction c with
  | zero => omega
  | succ j ih =>
    intro h
    by_cases hc : index < j ∧ id < queue.getD j 0
    · rw [spliceLoop, if_pos hc]
      exact ih hc.1
    · rw [spliceLoop, if_neg hc]
      omega

theorem spliceLoop_skipped (queue : List Nat) (index id : Nat) :
    ∀ c k, spliceLoop queue index id c ≤ k → k < c → id < queue.getD k 0 := by
  intro c
  induction c with
  | zero => omega
  | succ j ih =>
    intro k hk1 hk2
    by_cases hc : index < j ∧ id < queue.getD j 0
    · rw [spliceLoop, if_pos hc] at hk1
      by_cases hkj : k < j
      · exact ih k hk1 hkj
      · have : k = j := by omega
        rw [this]
        exact hc.2
    · rw [spliceLoop, if_neg hc] at hk1
      omega

theorem spliceLoop_stop (queue : List Nat) (index id : Nat) :
    ∀ c, index < c →
      spliceLoop queue index id c = index + 1 ∨
      queue.getD (spliceLoop queue index id c - 1) 0 ≤ id := by
  intro c
  induction c with
  | zero => omega
  | succ j ih =>
    intro h
    by_cases hc : index < j ∧ id < queue.getD j 0
    · rw [spliceLoop, if_pos hc]
      exact ih hc.1
    · rw [spliceLoop, if_neg hc]
      rcases not_and_or.mp hc with h1 | h1
      · left
        omega
      · right
        simpa using not_lt.mp h1

/-- C2: `flushSchedulerQueue` sorts the pending queue ascending by id before
running it (so, absent re-entrant enqueues, watchers run in ascending id
order, smaller creation ids first), and a watcher enqueued while flushing is
spliced after the current index at an id-sorted position (all entries past the
insertion point have larger ids, and the entry just before it — if the
position is not immediately after the running index — has a smaller-or-equal
id) rather than appended. -/
theorem flush_sorted_splice :
    (∀ st : SchedState, st.has.Nodup →
      List.Sorted (· ≤ ·)
        ((flushSchedulerQueue nilBeh (st.queue.length + 1) st).runs) ∧
      (flushSchedulerQueue nilBeh (st.queue.length + 1) st).updatedQueue =
        st.queue.insertionSort (· ≤ ·)) ∧
    (∀ (st : SchedState) (id : Nat), st.flushing = true → id ∉ st.has →
      st.index < st.queue.length →
      ∃ pos, (queueWatcher st id).queue = spliceInsert st.queue pos id ∧
        st.index < pos ∧ pos ≤ st.queue.length ∧
        (∀ k, pos ≤ k → k < st.queue.length → id < st.queue.getD k 0) ∧
        (pos = st.index + 1 ∨ st.queue.getD (pos - 1) 0 ≤ id)) := by
  constructor
  · intro st hh
    have hperm : ((st.queue.insertionSort (· ≤ ·))).Perm st.queue :=
      List.perm_insertionSort _ _
    have hrun := flushLoop_nilBeh (st.queue.length + 1)
      { st with flushing := true, queue := st.queue.insertionSort (· ≤ ·) }
      [] [] hh (by simp [hperm.length_eq]; omega)
    unfold flushSchedulerQueue
    simp only at hrun ⊢
    rw [hrun.1, hrun.2.1]
    refine ⟨?_, rfl⟩
    have hsorted : List.Sorted (· ≤ ·) (st.queue.insertionSort (· ≤ ·)) :=
      List.sorted_insertionSort _ _
    simpa using hsorted.sublist (List.drop_sublist _ _)
  · intro st id hf hid hidx
    refine ⟨spliceLoop st.queue st.index id st.queue.length, ?_, ?_, ?_, ?_, ?_⟩
    · unfold queueWatcher
      simp only [hid, if_false]
      cases hw : st.waiting <;> simp [hf, hw]
    · exact spliceLoop_gt_index _ _ _ _ hidx
    · exact spliceLoop_le _ _ _ _
    · exact fun k h1 h2 => spliceLoop_skipped _ _ _ _ k h1 h2
    · exact spliceLoop_stop _ _ _ _ hidx

/-- Witness for C2 at concrete inputs: flushing the queue `[3, 1, 2]` runs the
watchers in order `[1, 2, 3]`, and enqueuing id 2 while the sorted queue
`[1, 3, 5]` is flushing at index 0 splices it at position 1 (between 1 and 3),
not at the end. -/
theorem flush_sorted_splice_witness :
    (List.Sorted (· ≤ ·)
      ((flushSchedulerQueue nilBeh 4 ⟨[3, 1, 2], [1, 2, 3], [], true, false, 0⟩).runs)) ∧
    (∃ pos,
      (queueWatcher ⟨[1, 3, 5], [], [], true, true, 0⟩ 2).queue =
        spliceInsert [1, 3, 5] pos 2 ∧
      0 < pos ∧ pos ≤ 3 ∧
      (∀ k, pos ≤ k → k < 3 → 2 < List.getD [1, 3, 5] k 0) ∧
      (pos = 1 ∨ List.getD [1, 3, 5] (pos - 1) 0 ≤ 2)) :=
  ⟨(flush_sorted_splice.1 ⟨[3, 1, 2], [1, 2, 3], [], true, false, 0⟩ (by decide)).1,
   flush_sorted_splice.2 ⟨[1, 3, 5], [], [], true, true, 0⟩ 2 rfl (by decide) (by decide)⟩

set_option maxRecDepth 10000 in
/-- C3: a watcher (id 7) whose every run re-enqueues itself is run exactly
101 times in one flush (it was re-enqueued for itself more than
MAX_UPDATE_COUNT = 100 times), after which the scheduler emits the
infinite-update-loop diagnostic naming that watcher and breaks out: the
re-enqueued 102nd copy is left unrun (`updatedQueue` still holds it), the
flush completes normally and the scheduler state is fully reset (not a
process-fatal condition). -/
theorem runaway_update_guard :
    (flushSchedulerQueue behSelf 300 (queueWatcher initSchedState 7)).runs =
      List.replicate (MAX_UPDATE_COUNT + 1) 7 ∧
    (flushSchedulerQueue behSelf 300 (queueWatcher initSchedState 7)).warnedIds =
      [7] ∧
    (flushSchedulerQueue behSelf 300 (queueWatcher initSchedState 7)).updatedQueue =
      List.replicate (MAX_UPDATE_COUNT + 2) 7 ∧
    (flushSchedulerQueue behSelf 300 (queueWatcher initSchedState 7)).completed =
      true ∧
    (flushSchedulerQueue behSelf 300 (queueWatcher initSchedState 7)).st =
      initSchedState := by
  refine ⟨?_, ?_, ?_, ?_, ?_⟩ <;> decide

/-! ## Keep-alive cache (src/src/core/components/keep-alive.js)

The cache maps string keys to entries `{name, tag, componentInstance}`; the
JS object is embedded as an insertion-ordered association list whose values
are `Option CacheEntry` because `pruneCacheEntry` writes `null` rather than
deleting the property.  Component instances are identified by numeric ids;
calling `$destroy` on an instance is recorded by returning its id in the
`destroyed` output list.  `this._vnode` (the active rendered vnode) is
modelled by its `tag` field only, which is all `pruneCacheEntry` reads. -/

structure CacheEntry where
  name : Option String
  tag : Option String
  componentInstance : Nat
  deriving Repr, DecidableEq

/-- The component options of a vnode as read by `getComponentName`:
`Ctor.options.name` and the registration `tag`.  A falsy `name` is modelled
as `none`. -/
structure VNodeCompOptions where
  ctorOptionsName : Option String
  tag : Option String
  deriving Repr, DecidableEq

/-- `getComponentName (opts)`: `opts.Ctor.options.name || opts.tag`. -/
def getComponentName (opts : VNodeCompOptions) : Option String :=
  match opts.ctorOptionsName with
  | some n => some n
  | none => opts.tag

/-- The fields of `vnodeToCache` that `cacheVNode` destructures. -/
structure VNodeToCache where
  tag : Option String
  componentInstance : Nat
  componentOptions : VNodeCompOptions
  deriving Repr, DecidableEq

/-- The active `_vnode`, reduced to the one field `pruneCacheEntry` reads. -/
structure CurVNode where
  tag : Option String
  deriving Repr, DecidableEq

/-- The keep-alive instance state touched by `cacheVNode`, `pruneCacheEntry`
and the `destroyed` hook.  `maxVal` is `some m` when `this.max` is truthy
with `parseInt(this.max) = m`, `none` when no maximum is configured. -/
structure KAState where
  cache : List (String × Option CacheEntry)
  keys : List String
  maxVal : Option Nat
  vnodeToCache : Option VNodeToCache
  keyToCache : String
  current : Option CurVNode
  deriving Repr, DecidableEq

/-- `pruneCacheEntry (cache, key, keys, current?)` (keep-alive.js lines
45-57): destroy the held instance unless the entry shares its tag with the
currently active vnode, write `null` into the cache slot and remove the key
from the key list.  Returns the new cache, the new key list, and the ids of
the instances on which `$destroy` was invoked. -/
def pruneCacheEntry (cache : List (String × Option CacheEntry)) (key : String)
    (keys : List String) (current : Option CurVNode) :
    List (String × Option CacheEntry) × List String × List Nat :=
  let entry := (assocGet cache key).getD none
  let destroyed :=
    match entry, current with
    | some e, none => [e.componentInstance]
    | some e, some c => if e.tag ≠ c.tag then [e.componentInstance] else []
    | none, _ => []
  (assocSet cache key none, keys.erase key, destroyed)

/-- The cache entry built by `cacheVNode` from the vnode being cached. -/
def entryOf (v : VNodeToCache) : CacheEntry :=
  ⟨getComponentName v.componentOptions, v.tag, v.componentInstance⟩

/-- `keys[0]` at the point of the capacity check in `cacheVNode`: the key
list there is `s.keys ++ [s.keyToCache]`, so its first element is the old
front key, or the freshly pushed key when the key list was empty. -/
def frontKey (s : KAState) : String :=
  match s.keys with
  | [] => s.keyToCache
  | k :: _ => k

/-- `cacheVNode` (keep-alive.js lines 72-90): commit the deferred cache
insertion, push the key as most recently used, and if a truthy `max` is
configured and the key count now exceeds it, prune the least recently used
entry `keys[0]` passing the active `_vnode` as the never-evict-on-screen
guard. -/
def cacheVNode (s : KAState) : KAState × List Nat :=
  match s.vnodeToCache with
  | none => (s, [])
  | some v =>
    let cache1 := assocSet s.cache s.keyToCache (some (entryOf v))
    let keys1 := s.keys ++ [s.keyToCache]
    match s.maxVal with
    | some m =>
      if m < keys1.length then
        let pr := pruneCacheEntry cache1 (frontKey s) keys1 s.current
        ({ s with cache := pr.1, keys := pr.2.1, vnodeToCache := none }, pr.2.2)
      else
        ({ s with cache := cache1, keys := keys1, vnodeToCache := none }, [])
    | none =>
      ({ s with cache := cache1, keys := keys1, vnodeToCache := none }, [])

/-- The cache-hit path of `render` (keep-alive.js lines 160-165): `remove
(keys, key); keys.push(key)` — move the hit key to the most-recently-used
end of the key list. -/
def renderHitKeys (keys : List String) (key : String) : List String :=
  keys.erase key ++ [key]

/-- The `destroyed` hook's `for (const key in this.cache)` loop (keep-alive.js
lines 100-105): prune every cache key with no `current` vnode. -/
def destroyedLoop (dom : List String)
    (cache : List (String × Option CacheEntry)) (keys : List String)
    (acc : List Nat) :
    List (String × Option CacheEntry) × List String × List Nat :=
  match dom with
  | [] => (cache, keys, acc)
  | k :: rest =>
    let pr := pruneCacheEntry cache k keys none
    destroyedLoop rest pr.1 pr.2.1 (acc ++ pr.2.2)

/-- The `destroyed` hook: iterate over the cache object's keys (insertion
order; `pruneCacheEntry` nulls values but never deletes properties, so the
iteration domain is the original key set). -/
def destroyedHook (s : KAState) : KAState × List Nat :=
  let r := destroyedLoop (s.cache.map Prod.fst) s.cache s.keys []
  ({ s with cache := r.1, keys := r.2.1 }, r.2.2)

/-- The keys of the cache entries that currently hold an instance. -/
def liveKeys (cache : List (String × Option CacheEntry)) : List String :=
  (cache.filter (fun p => p.2.isSome)).map Prod.fst

/-- Keep-alive data-structure invariant: no duplicate keys in the key list or
in the cache object, and the key list holds exactly the keys of live cache
entries. -/
def KAInv (s : KAState) : Prop :=
  s.keys.Nodup ∧ (s.cache.map Prod.fst).Nodup ∧
  ∀ k, k ∈ s.keys ↔ ((assocGet s.cache k).getD none).isSome

theorem assocSet_map_fst_of_mem {κ α : Type} [DecidableEq κ]
    (l : List (κ × α)) (k : κ) (v : α) (h : k ∈ l.map Prod.fst) :
    (assocSet l k v).map Prod.fst = l.map Prod.fst := by
  induction l with
  | nil => simp at h
  | cons hd t ih =>
    obtain ⟨k2, v2⟩ := hd
    by_cases hk : k2 = k
    · simp [assocSet, hk]
    · rw [List.map_cons] at h
      rcases List.mem_cons.mp h with h3 | h3
      · exact absurd h3.symm hk
      · simp [assocSet, hk, ih h3]

theorem assocSet_map_fst_of_not_mem {κ α : Type} [DecidableEq κ]
    (l : List (κ × α)) (k : κ) (v : α) (h : k ∉ l.map Prod.fst) :
    (assocSet l k v).map Prod.fst = l.map Prod.fst ++ [k] := by
  induction l with
  | nil => simp [assocSet]
  | cons hd t ih =>
    obtain ⟨k2, v2⟩ := hd
    have hk : k2 ≠ k := by
      intro h2
      exact h (by simp [h2])
    have h2 : k ∉ t.map Prod.fst := fun h3 => h (by simp [h3])
    simp [assocSet, hk, ih h2]

theorem assocSet_map_fst_nodup {κ α : Type} [DecidableEq κ]
    (l : List (κ × α)) (k : κ) (v : α) (h : (l.map Prod.fst).Nodup) :
    ((assocSet l k v).map Prod.fst).Nodup := by
  by_cases hm : k ∈ l.map Prod.fst
  · rw [assocSet_map_fst_of_mem l k v hm]
    exact h
  · rw [assocSet_map_fst_of_not_mem l k v hm]
    have : (k :: l.map Prod.fst).Nodup := List.nodup_cons.mpr ⟨hm, h⟩
    exact List.perm_append_singleton k (l.map Prod.fst) |>.nodup_iff.mpr this

theorem liveKeys_sublist (cache : List (String × Option CacheEntry)) :
    (liveKeys cache).Sublist (cache.map Prod.fst) :=
  (List.filter_sublist cache).map Prod.fst

theorem liveKeys_cons_some (k2 : String) (e : CacheEntry)
    (t : List (String × Option CacheEntry)) :
    liveKeys ((k2, some e) :: t) = k2 :: liveKeys t := by
  simp [liveKeys]

theorem liveKeys_cons_none (k2 : String)
    (t : List (String × Option CacheEntry)) :
    liveKeys ((k2, none) :: t) = liveKeys t := by
  simp [liveKeys]

theorem mem_liveKeys (cache : List (String × Option CacheEntry))
    (hd : (cache.map Prod.fst).Nodup) (k : String) :
    k ∈ liveKeys cache ↔ ((assocGet cache k).getD none).isSome := by
  induction cache with
  | nil => simp [liveKeys, assocGet]
  | cons hd2 t ih =>
    obtain ⟨k2, v2⟩ := hd2
    have hd3 : (t.map Prod.fst).Nodup := (List.nodup_cons.mp hd).2
    have hk2 : k2 ∉ t.map Prod.fst := (List.nodup_cons.mp hd).1
    by_cases hk : k2 = k
    · subst hk
      have hnot : k2 ∉ liveKeys t :=
        fun h => hk2 ((liveKeys_sublist t).subset h)
      cases v2 with
      | none =>
        rw [liveKeys_cons_none]
        simp [assocGet, hnot, ih hd3]
      | some e =>
        rw [liveKeys_cons_some]
        simp [assocGet]
    · cases v2 with
      | none =>
        rw [liveKeys_cons_none]
        simp only [assocGet, hk, if_false]
        exact ih hd3
      | some e =>
        rw [liveKeys_cons_some]
        simp only [assocGet, hk, if_false, List.mem_cons]
        rw [← ih hd3]
        constructor
        · rintro (h | h)
          · exact absurd h.symm hk
          · exact h
        · exact fun h => Or.inr h

theorem kaInv_liveKeys_perm (s : KAState) (h : KAInv s) :
    (liveKeys s.cache).Perm s.keys := by
  obtain ⟨hkeys, hdom, hmem⟩ := h
  have h1 : (liveKeys s.cache).Nodup :=
    hdom.sublist (liveKeys_sublist s.cache)
  rw [List.perm_ext_iff_of_nodup h1 hkeys]
  intro a
  rw [mem_liveKeys s.cache hdom a, hmem a]

theorem kaInv_insert (cache : List (String × Option CacheEntry))
    (keys : List String) (key : String) (e : CacheEntry)
    (h1 : keys.Nodup) (h2 : (cache.map Prod.fst).Nodup)
    (h3 : ∀ k, k ∈ keys ↔ ((assocGet cache k).getD none).isSome)
    (hmiss : key ∉ keys) :
    (keys ++ [key]).Nodup ∧
    ((assocSet cache key (some e)).map Prod.fst).Nodup ∧
    ∀ k, k ∈ keys ++ [key] ↔
      ((assocGet (assocSet cache key (some e)) k).getD none).isSome := by
  refine ⟨?_, assocSet_map_fst_nodup _ _ _ h2, ?_⟩
  · exact (List.perm_append_singleton key keys).nodup_iff.mpr
      (List.nodup_cons.mpr ⟨hmiss, h1⟩)
  · intro k
    by_cases hk : k = key
    · subst hk
      simp [assocGet_set_self]
    · rw [assocGet_set_other cache key k (some e) hk]
      simp only [List.mem_append, List.mem_singleton, hk, or_false]
      exact h3 k

theorem kaInv_prune (cache : List (String × Option CacheEntry))
    (keys : List String) (key : String)
    (h1 : keys.Nodup) (h2 : (cache.map Prod.fst).Nodup)
    (h3 : ∀ k, k ∈ keys ↔ ((assocGet cache k).getD none).isSome) :
    (keys.erase key).Nodup ∧
    ((assocSet cache key none).map Prod.fst).Nodup ∧
    ∀ k, k ∈ keys.erase key ↔
      ((assocGet (assocSet cache key none) k).getD none).isSome := by
  refine ⟨h1.erase key, assocSet_map_fst_nodup _ _ _ h2, ?_⟩
  intro k
  by_cases hk : k = key
  · subst hk
    simp [assocGet_set_self, h1.not_mem_erase]
  · rw [assocGet_set_other cache key k none hk]
    rw [List.mem_erase_of_ne hk]
    exact h3 k

theorem pruneCacheEntry_cache (c : List (String × Option CacheEntry))
    (k : String) (ks : List String) (cur : Option CurVNode) :
    (pruneCacheEntry c k ks cur).1 = assocSet c k none := rfl

theorem pruneCacheEntry_keysOut (c : List (String × Option CacheEntry))
    (k : String) (ks : List String) (cur : Option CurVNode) :
    (pruneCacheEntry c k ks cur).2.1 = ks.erase k := rfl

theorem pruneCacheEntry_destroyed_none (c : List (String × Option CacheEntry))
    (k : String) (ks : List String)
    (h : (assocGet c k).getD none = none) (cur : Option CurVNode) :
    (pruneCacheEntry c k ks cur).2.2 = [] := by
  unfold pruneCacheEntry
  rw [h]

theorem pruneCacheEntry_destroyed_nocur (c : List (String × Option CacheEntry))
    (k : String) (ks : List String) (e : CacheEntry)
    (h : (assocGet c k).getD none = some e) :
    (pruneCacheEntry c k ks none).2.2 = [e.componentInstance] := by
  unfold pruneCacheEntry
  rw [h]

theorem pruneCacheEntry_destroyed_cur (c : List (String × Option CacheEntry))
    (k : String) (ks : List String) (e : CacheEntry) (cv : CurVNode)
    (h : (assocGet c k).getD none = some e) :
    (pruneCacheEntry c k ks (some cv)).2.2 =
      if e.tag ≠ cv.tag then [e.componentInstance] else [] := by
  unfold pruneCacheEntry
  rw [h]

theorem frontKey_nil (s : KAState) (h : s.keys = []) :
    frontKey s = s.keyToCache := by
  unfold frontKey
  rw [h]

theorem frontKey_cons (s : KAState) (h : String) (t : List String)
    (hh : s.keys = h :: t) : frontKey s = h := by
  unfold frontKey
  rw [hh]

theorem cacheVNode_full (s : KAState) (m : Nat) (v : VNodeToCache)
    (hm : s.maxVal = some m) (hv : s.vnodeToCache = some v)
    (hfull : m < s.keys.length + 1) :
    (cacheVNode s).1.keys =
      (s.keys ++ [s.keyToCache]).erase (frontKey s) ∧
    (cacheVNode s).1.cache =
      assocSet (assocSet s.cache s.keyToCache (some (entryOf v)))
        (frontKey s) none ∧
    (cacheVNode s).2 =
      (pruneCacheEntry (assocSet s.cache s.keyToCache (some (entryOf v)))
        (frontKey s) (s.keys ++ [s.keyToCache]) s.current).2.2 := by
  have hlt : m < (s.keys ++ [s.keyToCache]).length := by
    simpa using hfull
  unfold cacheVNode
  rw [hv, hm]
  simp [hlt, hfull, pruneCacheEntry_cache, pruneCacheEntry_keysOut]

theorem cacheVNode_notfull (s : KAState) (m : Nat) (v : VNodeToCache)
    (hm : s.maxVal = some m) (hv : s.vnodeToCache = some v)
    (hfull : ¬ m < s.keys.length + 1) :
    (cacheVNode s).1.keys = s.keys ++ [s.keyToCache] ∧
    (cacheVNode s).1.cache =
      assocSet s.cache s.keyToCache (some (entryOf v)) ∧
    (cacheVNode s).2 = [] := by
  have hlt : ¬ m < (s.keys ++ [s.keyToCache]).length := by
    simpa using hfull
  unfold cacheVNode
  rw [hv, hm]
  simp [hlt, hfull]

/-- C4: committing a cache insertion under a configured maximum `m` keeps the
keep-alive cache bounded: the key list and the set of live cache entries
never exceed `m` entries and the structural invariant is preserved; when the
cache was full the evicted entry is exactly the least-recently-used one at
the front of the key list (the remaining keys keep their order); the evicted
entry's instance is destroyed unless its tag equals the active vnode's tag
(never evict what is on screen); and a cache hit moves the hit key to the
most-recently-used end of the key list without changing its contents. -/
theorem keep_alive_bounded (s : KAState) (m : Nat) (v : VNodeToCache)
    (hm : s.maxVal = some m) (hv : s.vnodeToCache = some v)
    (hinv : KAInv s) (hmiss : s.keyToCache ∉ s.keys)
    (hlen : s.keys.length ≤ m) :
    (KAInv (cacheVNode s).1 ∧
     (cacheVNode s).1.keys.length ≤ m ∧
     (liveKeys (cacheVNode s).1.cache).length ≤ m) ∧
    (s.keys.length = m →
      (cacheVNode s).1.keys = (s.keys ++ [s.keyToCache]).drop 1) ∧
    (∀ e : CacheEntry, s.keys.length = m →
      (assocGet s.cache (frontKey s)).getD none = some e →
      (s.current = none → (cacheVNode s).2 = [e.componentInstance]) ∧
      (∀ c : CurVNode, s.current = some c → e.tag ≠ c.tag →
        (cacheVNode s).2 = [e.componentInstance]) ∧
      (∀ c : CurVNode, s.current = some c → e.tag = c.tag →
        (cacheVNode s).2 = [])) ∧
    (∀ (keys : List String) (key : String), keys.Nodup → key ∈ keys →
      (renderHitKeys keys key).getLast? = some key ∧
      (renderHitKeys keys key).Perm keys) := by
  obtain ⟨hk1, hk2, hk3⟩ := hinv
  obtain ⟨hi1, hi2, hi3⟩ := kaInv_insert s.cache s.keys s.keyToCache
    (entryOf v) hk1 hk2 hk3 hmiss
  have hfrontmem : frontKey s ∈ s.keys ++ [s.keyToCache] := by
    unfold frontKey
    cases s.keys <;> simp
  refine ⟨?_, ?_, ?_, ?_⟩
  · -- invariant and capacity
    by_cases hfull : m < s.keys.length + 1
    · obtain ⟨hcK, hcC, _⟩ := cacheVNode_full s m v hm hv hfull
      obtain ⟨hp1, hp2, hp3⟩ := kaInv_prune _ _ (frontKey s) hi1 hi2 hi3
      have hinv2 : KAInv (cacheVNode s).1 := by
        refine ⟨?_, ?_, ?_⟩
        · rw [hcK]; exact hp1
        · rw [hcC]; exact hp2
        · intro k
          rw [hcK, hcC]
          exact hp3 k
      have hlen2 : (cacheVNode s).1.keys.length ≤ m := by
        rw [hcK, List.length_erase_of_mem hfrontmem]
        simpa using hlen
      refine ⟨hinv2, hlen2, ?_⟩
      rw [(kaInv_liveKeys_perm _ hinv2).length_eq]
      exact hlen2
    · obtain ⟨hcK, hcC, _⟩ := cacheVNode_notfull s m v hm hv hfull
      have hinv2 : KAInv (cacheVNode s).1 := by
        refine ⟨?_, ?_, ?_⟩
        · rw [hcK]; exact hi1
        · rw [hcC]; exact hi2
        · intro k
          rw [hcK, hcC]
          exact hi3 k
      have hlen2 : (cacheVNode s).1.keys.length ≤ m := by
        rw [hcK]
        simpa using Nat.not_lt.mp hfull
      refine ⟨hinv2, hlen2, ?_⟩
      rw [(kaInv_liveKeys_perm _ hinv2).length_eq]
      exact hlen2
  · -- LRU front eviction: the remaining keys are the old tail in order
    intro hfull
    obtain ⟨hcK, _, _⟩ := cacheVNode_full s m v hm hv (by omega)
    rw [hcK]
    cases hks : s.keys with
    | nil =>
      rw [frontKey_nil s hks]
      simp
    | cons h t =>
      rw [frontKey_cons s h t hks]
      simp [List.erase_cons_head]
  · -- destroy-unless-on-screen guard
    intro e hfull hfront
    obtain ⟨_, _, hcD⟩ := cacheVNode_full s m v hm hv (by omega)
    have hfne : frontKey s ≠ s.keyToCache := by
      cases hks : s.keys with
      | nil =>
        exfalso
        rw [frontKey_nil s hks] at hfront
        exact hmiss ((hk3 s.keyToCache).mpr (by simp [hfront]))
      | cons h t =>
        rw [frontKey_cons s h t hks]
        intro heq
        apply hmiss
        rw [← heq, hks]
        simp
    have hget : (assocGet (assocSet s.cache s.keyToCache
        (some (entryOf v))) (frontKey s)).getD none = some e := by
      rw [assocGet_set_other _ _ _ _ hfne]
      exact hfront
    refine ⟨?_, ?_, ?_⟩
    · intro hcur
      rw [hcD, hcur, pruneCacheEntry_destroyed_nocur _ _ _ _ hget]
    · intro c hcur htag
      rw [hcD, hcur, pruneCacheEntry_destroyed_cur _ _ _ _ _ hget]
      simp [htag]
    · intro c hcur htag
      rw [hcD, hcur, pruneCacheEntry_destroyed_cur _ _ _ _ _ hget]
      simp [htag]
  · -- cache hit moves the key to the MRU end
    intro keys key hnd hmem
    refine ⟨by simp [renderHitKeys], ?_⟩
    have h1 : (renderHitKeys keys key).Perm (key :: keys.erase key) :=
      List.perm_append_singleton key (keys.erase key)
    exact h1.trans (List.perm_cons_erase hmem).symm

/-- Concrete keep-alive state: two live entries, max 2, a pending insertion
under key "c", active vnode tag "div". -/
def kaWitnessState : KAState :=
  { cache := [("a", some ⟨some "comp-a", some "span", 1⟩),
              ("b", some ⟨some "comp-b", some "p", 2⟩)],
    keys := ["a", "b"],
    maxVal := some 2,
    vnodeToCache := some ⟨some "div", 3, ⟨some "comp-c", some "div"⟩⟩,
    keyToCache := "c",
    current := some ⟨some "div"⟩ }

theorem kaWitnessState_inv : KAInv kaWitnessState := by
  refine ⟨by decide, by decide, ?_⟩
  intro k
  by_cases ha : k = "a"
  · subst ha
    decide
  · by_cases hb : k = "b"
    · subst hb
      decide
    · simp [kaWitnessState, assocGet, ha, hb, Ne.symm ha, Ne.symm hb]

/-- Witness for C4: a full cache of two entries (max 2) with keys
`["a", "b"]`; inserting key `"c"` evicts the front key `"a"`, destroying
instance 1 because the active vnode's tag differs, and the key list becomes
`["b", "c"]`; hitting key `"a"` in `["a", "b"]` moves it to the end. -/
theorem keep_alive_bounded_witness :
    (KAInv (cacheVNode kaWitnessState).1 ∧
     (cacheVNode kaWitnessState).1.keys.length ≤ 2 ∧
     (liveKeys (cacheVNode kaWitnessState).1.cache).length ≤ 2) ∧
    ((cacheVNode kaWitnessState).1.keys = ["b", "c"]) ∧
    ((cacheVNode kaWitnessState).2 = [1]) ∧
    ((renderHitKeys ["a", "b"] "a").getLast? = some "a" ∧
     (renderHitKeys ["a", "b"] "a").Perm ["a", "b"]) := by
  have h := keep_alive_bounded kaWitnessState 2
    ⟨some "div", 3, ⟨some "comp-c", some "div"⟩⟩
    rfl rfl kaWitnessState_inv (by decide) (by decide)
  refine ⟨h.1, ?_, ?_, h.2.2.2 ["a", "b"] "a" (by decide) (by decide)⟩
  · have := h.2.1 rfl
    simpa using this
  · have h2 := h.2.2.1 ⟨some "comp-a", some "span", 1⟩ rfl (by decide)
    exact h2.2.1 ⟨some "div"⟩ rfl (by decide)

theorem assocGet_append_of_not_mem {κ α : Type} [DecidableEq κ]
    (pre post : List (κ × α)) (k : κ) (h : k ∉ pre.map Prod.fst) :
    assocGet (pre ++ post) k = assocGet post k := by
  induction pre with
  | nil => simp
  | cons hd t ih =>
    obtain ⟨k2, v2⟩ := hd
    have hk : k2 ≠ k := fun h2 => h (by simp [h2])
    have h2 : k ∉ t.map Prod.fst := fun h3 => h (by simp [h3])
    simp [assocGet, hk, ih h2]

theorem assocSet_append_of_not_mem {κ α : Type} [DecidableEq κ]
    (pre post : List (κ × α)) (k : κ) (v : α) (h : k ∉ pre.map Prod.fst) :
    assocSet (pre ++ post) k v = pre ++ assocSet post k v := by
  induction pre with
  | nil => simp
  | cons hd t ih =>
    obtain ⟨k2, v2⟩ := hd
    have hk : k2 ≠ k := fun h2 => h (by simp [h2])
    have h2 : k ∉ t.map Prod.fst := fun h3 => h (by simp [h3])
    simp [assocSet, hk, ih h2]

/-- One full pass of the `destroyed`-hook loop over the cache: when the loop
has already nulled the entries of `pre` and still has to visit the keys of
`post`, it nulls every remaining entry in place, erases each visited key
from the key list, and destroys exactly the instances of the entries of
`post` that were still live, in cache order. -/
theorem destroyedLoop_spec (post : List (String × Option CacheEntry)) :
    ∀ (pre : List (String × Option CacheEntry)) (keys : List String)
      (acc : List Nat), ((pre ++ post).map Prod.fst).Nodup →
      destroyedLoop (post.map Prod.fst)
          (pre.map (fun p => (p.1, (none : Option CacheEntry))) ++ post)
          keys acc =
        ((pre ++ post).map (fun p => (p.1, none)),
         (post.map Prod.fst).foldl List.erase keys,
         acc ++ post.filterMap (fun p => p.2.map CacheEntry.componentInstance)) := by
  induction post with
  | nil =>
    intro pre keys acc _
    simp [destroyedLoop]
  | cons hd t ih =>
    intro pre keys acc hnd
    obtain ⟨k, v⟩ := hd
    have hprenull : (pre.map (fun p => (p.1, (none : Option CacheEntry)))).map
        Prod.fst = pre.map Prod.fst := by
      simp
    have hkpre : k ∉ pre.map Prod.fst := by
      intro hmem
      have hnd2 : (pre.map Prod.fst ++ k :: t.map Prod.fst).Nodup := by
        simpa using hnd
      exact (List.nodup_append.mp hnd2).2.2 hmem (by simp)
    have hkprenull : k ∉ (pre.map
        (fun p => (p.1, (none : Option CacheEntry)))).map Prod.fst := by
      rw [hprenull]
      exact hkpre
    have hget : (assocGet (pre.map (fun p => (p.1, (none : Option CacheEntry)))
        ++ (k, v) :: t) k).getD none = v := by
      rw [assocGet_append_of_not_mem _ _ _ hkprenull]
      simp [assocGet]
    have hset : assocSet (pre.map (fun p => (p.1, (none : Option CacheEntry)))
        ++ (k, v) :: t) k none =
        (pre ++ [(k, v)]).map (fun p => (p.1, none)) ++ t := by
      rw [assocSet_append_of_not_mem _ _ _ _ hkprenull]
      simp [assocSet]
    have hdes : (pruneCacheEntry
        (pre.map (fun p => (p.1, (none : Option CacheEntry))) ++ (k, v) :: t)
        k keys none).2.2 = v.toList.map CacheEntry.componentInstance := by
      cases v with
      | none =>
        rw [pruneCacheEntry_destroyed_none _ _ _ hget]
        rfl
      | some e =>
        rw [pruneCacheEntry_destroyed_nocur _ _ _ e hget]
        rfl
    have hstep : destroyedLoop (((k, v) :: t).map Prod.fst)
        (pre.map (fun p => (p.1, (none : Option CacheEntry))) ++ (k, v) :: t)
        keys acc =
        destroyedLoop (t.map Prod.fst)
          ((pre ++ [(k, v)]).map (fun p => (p.1, none)) ++ t)
          (keys.erase k)
          (acc ++ v.toList.map CacheEntry.componentInstance) := by
      simp only [List.map_cons, destroyedLoop, pruneCacheEntry_cache,
        pruneCacheEntry_keysOut, hset, hdes]
    rw [hstep, ih (pre ++ [(k, v)]) (keys.erase k)
      (acc ++ v.toList.map CacheEntry.componentInstance)
      (by simpa using hnd)]
    cases v <;> simp [List.filterMap_cons, List.append_assoc]

theorem foldl_erase_nil (dom : List String) :
    ∀ keys : List String, keys.Nodup → (∀ k ∈ keys, k ∈ dom) →
      dom.foldl List.erase keys = [] := by
  induction dom with
  | nil =>
    intro keys _ hsub
    cases hk : keys with
    | nil => rfl
    | cons h t =>
      exact absurd (hsub h (by rw [hk]; simp)) (by simp)
  | cons d t ih =>
    intro keys hnd hsub
    simp only [List.foldl_cons]
    apply ih (keys.erase d) (hnd.erase d)
    intro k hk
    have hkeys : k ∈ keys := List.mem_of_mem_erase hk
    have hkne : k ≠ d := (List.Nodup.mem_erase_iff hnd).mp hk |>.1
    rcases List.mem_cons.mp (hsub k hkeys) with h1 | h1
    · exact absurd h1 hkne
    · exact h1

/-- C10: when a keep-alive instance is destroyed, the `destroyed` hook calls
`pruneCacheEntry` for every cached key with no current vnode, so the
on-screen (tag-equality) exemption never applies: `$destroy` is invoked on
every cached component instance (all live entries, in cache order), every
cache slot is nulled and the key list is left empty. -/
theorem keep_alive_destroyed (s : KAState)
    (hdom : (s.cache.map Prod.fst).Nodup) (hkeys : s.keys.Nodup)
    (hsub : ∀ k ∈ s.keys, k ∈ s.cache.map Prod.fst) :
    (destroyedHook s).1.cache = s.cache.map (fun p => (p.1, none)) ∧
    (destroyedHook s).1.keys = [] ∧
    (destroyedHook s).2 =
      s.cache.filterMap (fun p => p.2.map CacheEntry.componentInstance) := by
  have h := destroyedLoop_spec s.cache [] s.keys [] (by simpa using hdom)
  simp only [List.map_nil, List.nil_append] at h
  unfold destroyedHook
  rw [h]
  refine ⟨rfl, ?_, by simp⟩
  exact foldl_erase_nil _ s.keys hkeys hsub

/-- Concrete keep-alive state for exercising the destroyed hook. -/
def kaDestroyWitnessState : KAState :=
  { cache := [("a", some ⟨some "comp-a", some "span", 1⟩),
              ("b", none),
              ("c", some ⟨some "comp-c", some "div", 2⟩)],
    keys := ["c", "a"],
    maxVal := none,
    vnodeToCache := none,
    keyToCache := "",
    current := some ⟨some "div"⟩ }

/-- Witness for C10 at a concrete state: a cache with live entries under
keys "a" and "c" (instances 1 and 2) and an already-nulled slot "b"; the
destroyed hook destroys instances 1 and 2, nulls every slot and empties the
key list. -/
theorem keep_alive_destroyed_witness :
    (destroyedHook kaDestroyWitnessState).1.cache =
      [("a", none), ("b", none), ("c", none)] ∧
    (destroyedHook kaDestroyWitnessState).1.keys = [] ∧
    (destroyedHook kaDestroyWitnessState).2 = [1, 2] := by
  have h := keep_alive_destroyed kaDestroyWitnessState
    (by decide) (by decide) (by decide)
  refine ⟨?_, h.2.1, ?_⟩
  · rw [h.1]
    rfl
  · rw [h.2.2]
    rfl

/-! ## Tree builder: `_createElement`
(second file bundled in src/src/core/vdom/helpers/extract-props.js,
concatenated-source lines 160-301)

External collaborators of `_createElement` whose definitions live outside the
provided sources — the children normalizers (`normalizeChildren`,
`simpleNormalizeChildren`), the platform predicates (`config.isReservedTag`,
`config.parsePlatformTagName`, `config.getTagNamespace`), component asset
resolution (`resolveAsset`) and `createComponent` as used from here — are
supplied as an environment of opaque functions; the theorems hold for every
environment.  `registerDeepBindings` only performs a reactive `traverse` of
`data.style`/`data.class` (a dependency-collection side effect) and returns
nothing, so it has no effect on the returned value. -/

/-- A JS `tag` argument: nullish, a string, or a component
definition/constructor (abstracted to a numeric id). -/
inductive TagV where
  | undef
  | str (s : String)
  | ctor (c : Nat)
  deriving Repr, DecidableEq

/-- JS truthiness of a tag value (`if (!tag)`): nullish and the empty string
are falsy. -/
def tagTruthy : TagV → Bool
  | .undef => false
  | .str s => !s.isEmpty
  | .ctor _ => true

/-- A `key` value: primitive (string/number) or not. -/
inductive KeyV where
  | prim (n : Nat)
  | obj (o : Nat)
  deriving Repr, DecidableEq

def keyIsPrimitive : KeyV → Bool
  | .prim _ => true
  | .obj _ => false

/-- The `VNodeData` fields `_createElement` reads or writes.  `observed`
models `isDef(data.__ob__)` (an already-observed, reactive object);
`scopedSlotsDefault` models `data.scopedSlots.default` as an opaque function
id; `dataTag` is the `data.tag` field read by the `.native`-modifier
warning. -/
structure VNodeData where
  observed : Bool
  isA : Option TagV
  key : Option KeyV
  pre : Bool
  nativeOn : Bool
  dataTag : Option String
  scopedSlotsDefault : Option Nat
  deriving Repr, DecidableEq

/-- `data = data || {}` in the scoped-slot branch builds a fresh empty data
object. -/
def emptyVNodeData : VNodeData :=
  ⟨false, none, none, false, false, none, none⟩

/-- One element of a `children` array: a function (identified by an opaque
id) or any other child value. -/
inductive ChildV where
  | fn (f : Nat)
  | node (n : Nat)
  deriving Repr, DecidableEq

/-- The `children` argument: nullish or an array. -/
inductive ChildrenArg where
  | undef
  | arr (items : List ChildV)
  deriving Repr, DecidableEq

/-- The vnode values produced here.  `empty` is `createEmptyVNode()` (a
comment placeholder node); `opaqueV` stands for vnode values whose structure
this module does not inspect (e.g. caller-supplied pre-normalized children
or `createComponent` output).  An undefined `children` field is modelled as
the empty list (the namespace walk treats both identically). -/
inductive VNodeM where
  | empty
  | elem (tag : String) (data : Option VNodeData) (children : List VNodeM)
      (ns : Option String)
  | textV (s : String)
  | opaqueV (n : Nat)

/-- A raw (non-normalized) children array flowing directly into the vnode
constructor: functions stay opaque values. -/
def interpChildren : ChildrenArg → List VNodeM
  | .undef => []
  | .arr items =>
    items.map fun c =>
      match c with
      | .fn f => .opaqueV f
      | .node n => .opaqueV n

/-- `_createElement` may return one vnode or an array of vnodes;
`createComponent` may also return `undefined`. -/
inductive VNodeRes where
  | one (v : VNodeM)
  | many (l : List VNodeM)
  | undef

/-- The external collaborators of `_createElement`. -/
structure CEEnv where
  normalizeChildren : ChildrenArg → List VNodeM
  simpleNormalizeChildren : ChildrenArg → List VNodeM
  isReservedTag : String → Bool
  parsePlatformTagName : String → String
  getTagNamespace : String → Option String
  resolveComponentAsset : String → Option Nat
  createComponent : Nat → Option VNodeData → List VNodeM → Option String →
    VNodeRes

/-- The context fields read: `context.$vnode && context.$vnode.ns`. -/
structure CECtx where
  vnodeNs : Option String
  deriving Repr, DecidableEq

inductive CEWarn where
  | observedData
  | nonPrimitiveKey
  | nativeOnNonComponent
  deriving Repr, DecidableEq

def SIMPLE_NORMALIZE : Nat := 1
def ALWAYS_NORMALIZE : Nat := 2

mutual

/-- `applyNS` (same file, lines 273-289): set the namespace on the vnode;
`foreignObject` resets the namespace for descendants and forces
propagation; recurse into children that carry a tag and either have no
namespace yet or are forced (except `svg`). -/
def applyNS (v : VNodeM) (ns : Option String) (force : Bool) : VNodeM :=
  match v with
  | .elem tag data children _ =>
    let ns2 := if tag = "foreignObject" then none else ns
    let force2 := if tag = "foreignObject" then true else force
    .elem tag data (applyNSList children ns2 force2) ns
  | v2 => v2

def applyNSList (l : List VNodeM) (ns : Option String) (force : Bool) :
    List VNodeM :=
  match l with
  | [] => []
  | c :: rest =>
    (match c with
     | .elem ctag cdata cch cns =>
       if cns = none ∨ (force ∧ ctag ≠ "svg")
       then applyNS (.elem ctag cdata cch cns) ns force
       else .elem ctag cdata cch cns
     | c2 => c2) :: applyNSList rest ns force

end

/-- `isDef(data) && isDef(data.__ob__)`. -/
def dataObserved : Option VNodeData → Bool
  | some d => d.observed
  | none => false

/-- The effective tag after the `v-bind` object syntax:
`if (isDef(data) && isDef(data.is)) tag = data.is`. -/
def effTag (tag : TagV) (data : Option VNodeData) : TagV :=
  match data with
  | some d =>
    match d.isA with
    | some t => t
    | none => tag
  | none => tag

/-- `_createElement` (lines 160-271): reject observed data with a warning
and an empty placeholder; apply the `data.is` override; return an empty
placeholder for a falsy tag; warn on non-primitive keys; install a sole
function child as the default scoped slot and clear the children; normalize
children; then build a platform element, resolve a registered component, or
fall back to an unknown element / direct component constructor; finally
propagate the namespace.  The function is total: no branch throws. -/
def _createElement (env : CEEnv) (ctx : CECtx) (tag : TagV)
    (data : Option VNodeData) (children : ChildrenArg)
    (normalizationType : Nat) : VNodeRes × List CEWarn :=
  if dataObserved data then
    -- warn('Avoid using observed data object as vnode data ...')
    (.one .empty, [.observedData])
  else
    let tag1 := effTag tag data
    if !tagTruthy tag1 then (.one .empty, [])
    else
      let wKey : List CEWarn :=
        match data with
        | some d =>
          match d.key with
          | some k => if !keyIsPrimitive k then [.nonPrimitiveKey] else []
          | none => []
        | none => []
      let fnChild : Option Nat :=
        match children with
        | .arr (ChildV.fn f :: _) => some f
        | _ => none
      let data2 :=
        match fnChild with
        | some f =>
          some { (match data with | some d => d | none => emptyVNodeData) with
                   scopedSlotsDefault := some f }
        | none => data
      let children2 :=
        match fnChild with
        | some _ => ChildrenArg.arr []
        | none => children
      let childrenN : List VNodeM :=
        if normalizationType = ALWAYS_NORMALIZE then
          env.normalizeChildren children2
        else if normalizationType = SIMPLE_NORMALIZE then
          env.simpleNormalizeChildren children2
        else interpChildren children2
      let resNs :=
        match tag1 with
        | .str s =>
          let ns :=
            match ctx.vnodeNs with
            | some n => some n
            | none => env.getTagNamespace s
          if env.isReservedTag s then
            let wNative :=
              match data2 with
              | some d =>
                if d.nativeOn ∧ d.dataTag ≠ some "component" then
                  [CEWarn.nativeOnNonComponent]
                else []
              | none => []
            ((VNodeRes.one (.elem (env.parsePlatformTagName s) data2
                childrenN none), wNative), ns)
          else
            match
              (if (match data2 with | some d => !d.pre | none => true) then
                env.resolveComponentAsset s
              else none) with
            | some c =>
              ((env.createComponent c data2 childrenN (some s), []), ns)
            | none =>
              ((VNodeRes.one (.elem s data2 childrenN none), []), ns)
        | .ctor c => ((env.createComponent c data2 childrenN none, []), none)
        | .undef => ((VNodeRes.undef, []), none)
      let res := resNs.1.1
      let wTag := resNs.1.2
      let ns := resNs.2
      match res with
      | .many l => (.many l, wKey ++ wTag)
      | .one v =>
        (.one (match ns with
               | some _ => applyNS v ns false
               | none => v), wKey ++ wTag)
      | .undef => (.one .empty, wKey ++ wTag)

/-- A concrete environment for counterexamples and witnesses: `div` and
`span` are reserved platform tags, no name resolves to a registered
component, no tag has a namespace, normalization returns the flat list. -/
def ceEnv0 : CEEnv :=
  { normalizeChildren := fun c => interpChildren c,
    simpleNormalizeChildren := fun c => interpChildren c,
    isReservedTag := fun t => t == "div" || t == "span",
    parsePlatformTagName := fun t => t,
    getTagNamespace := fun _ => none,
    resolveComponentAsset := fun _ => none,
    createComponent := fun _ _ _ _ => .undef }

/-- Counterexample to C5(b) as stated: with a falsy `tag` argument but
`data.is = "div"`, `_createElement` returns a real `div` element vnode, not
an empty placeholder — the falsiness check runs on the tag left after the
`data.is` override, not on the `tag` argument itself. -/
theorem createElement_falsy_tag_counterexample :
    (_createElement ceEnv0 ⟨none⟩ TagV.undef
        (some { emptyVNodeData with isA := some (.str "div") })
        ChildrenArg.undef 0).1 =
      VNodeRes.one (.elem "div"
        (some { emptyVNodeData with isA := some (.str "div") }) [] none) ∧
    VNodeRes.one (VNodeM.elem "div"
        (some { emptyVNodeData with isA := some (.str "div") }) [] none) ≠
      VNodeRes.one VNodeM.empty :=
  ⟨rfl, fun h => VNodeM.noConfusion (VNodeRes.one.inj h)⟩

/-- C5 (amended): `_createElement` returns an empty placeholder vnode rather
than failing in both of these cases: (a) the data argument is an
already-observed (reactive) object, in which case it also emits the
development warning (and no other warning); (b) the tag is falsy after
applying the `data.is` override — in particular whenever the tag argument is
falsy and the data carries no `is` — in which case no warning is emitted.
The embedding is a total function, so no exception propagates in either
case. -/
theorem createElement_empty_fallbacks (env : CEEnv) (ctx : CECtx) (tag : TagV)
    (data : Option VNodeData) (children : ChildrenArg) (nt : Nat) :
    (dataObserved data = true →
      _createElement env ctx tag data children nt =
        (.one .empty, [.observedData])) ∧
    (dataObserved data = false → tagTruthy (effTag tag data) = false →
      _createElement env ctx tag data children nt = (.one .empty, [])) := by
  constructor
  · intro h
    simp [_createElement, h]
  · intro h1 h2
    simp [_createElement, h1, h2]

/-- Witness for C5 (amended) at concrete inputs: observed data yields the
empty placeholder plus the warning; a nullish tag with no `is` override
yields the empty placeholder with no warning. -/
theorem createElement_empty_fallbacks_witness :
    _createElement ceEnv0 ⟨none⟩ (TagV.str "div")
        (some { emptyVNodeData with observed := true }) ChildrenArg.undef 2 =
      (.one .empty, [.observedData]) ∧
    _createElement ceEnv0 ⟨none⟩ TagV.undef none ChildrenArg.undef 2 =
      (.one .empty, []) :=
  ⟨(createElement_empty_fallbacks ceEnv0 ⟨none⟩ (TagV.str "div")
      (some { emptyVNodeData with observed := true }) ChildrenArg.undef 2).1
      rfl,
   (createElement_empty_fallbacks ceEnv0 ⟨none⟩ TagV.undef none
      ChildrenArg.undef 2).2 rfl rfl⟩

/-- C6: when the sole child argument is a single function, `_createElement`
installs that function as the default scoped slot on the (possibly freshly
created) data object and clears the literal children list before
normalization: the children handed to the normalizer are the emptied array.
Stated on the reserved-tag path with no namespace in play; the returned
element's data carries `scopedSlots.default = f` and its children are the
normalizer applied to the cleared array, for every environment. -/
theorem single_fn_child_scoped_slot (env : CEEnv) (ctx : CECtx) (s : String)
    (data : Option VNodeData) (f : Nat)
    (h1 : dataObserved data = false) (h2 : effTag (.str s) data = .str s)
    (h3 : s.isEmpty = false) (h4 : env.isReservedTag s = true)
    (h5 : ctx.vnodeNs = none) (h6 : env.getTagNamespace s = none) :
    (_createElement env ctx (.str s) data (ChildrenArg.arr [ChildV.fn f])
        ALWAYS_NORMALIZE).1 =
      VNodeRes.one (.elem (env.parsePlatformTagName s)
        (some { (match data with | some d => d | none => emptyVNodeData) with
                  scopedSlotsDefault := some f })
        (env.normalizeChildren (ChildrenArg.arr [])) none) := by
  simp [_createElement, h1, h2, h3, h4, h5, h6, ALWAYS_NORMALIZE, tagTruthy]

/-- Witness for C6: building a `div` whose only child is the function `5`
yields an element whose data holds `scopedSlots.default = 5` and whose
children are the normalization of the emptied array. -/
theorem single_fn_child_scoped_slot_witness :
    (_createElement ceEnv0 ⟨none⟩ (TagV.str "div") none
        (ChildrenArg.arr [ChildV.fn 5]) ALWAYS_NORMALIZE).1 =
      VNodeRes.one (.elem "div"
        (some { emptyVNodeData with scopedSlotsDefault := some 5 }) [] none) :=
  single_fn_child_scoped_slot ceEnv0 ⟨none⟩ "div" none 5
    rfl rfl rfl rfl rfl rfl

/-! ## v-model desugaring: `transformModel`
(src/src/core/vdom/create-component.js lines 326-350) -/

/-- A `data.onEvents[event]` slot: a single handler function or an array of
handler functions (functions as opaque ids). -/
inductive HandlerV where
  | single (f : Nat)
  | listH (fs : List Nat)
  deriving Repr, DecidableEq

/-- The handlers a slot holds, in order. -/
def HandlerV.toFns : HandlerV → List Nat
  | .single f => [f]
  | .listH fs => fs

/-- `options.model`: optional custom prop and event names (`none` models an
absent or falsy field). -/
structure ModelOpts where
  prop : Option String
  event : Option String
  deriving Repr, DecidableEq

/-- The component options read by `transformModel`: just `options.model`. -/
structure CompOptions where
  model : Option ModelOpts
  deriving Repr, DecidableEq

/-- The `data` fields `transformModel` touches: `data.attrs`, `data.onEvents`, and
`data.model = {value, callback}` (value and callback as opaque ids). -/
structure ModelData where
  attrs : List (String × Nat)
  onEvents : List (String × HandlerV)
  modelValue : Nat
  modelCallback : Nat
  deriving Repr, DecidableEq

/-- `(options.model && options.model.prop) || 'value'`. -/
def modelProp (options : CompOptions) : String :=
  match options.model with
  | some m => m.prop.getD "value"
  | none => "value"

/-- `(options.model && options.model.event) || 'input'`. -/
def modelEvent (options : CompOptions) : String :=
  match options.model with
  | some m => m.event.getD "input"
  | none => "input"

/-- The merge condition of `transformModel`:
`Array.isArray(existing) ? existing.indexOf(callback) === -1
                         : existing !== callback`. -/
def shouldMerge (ex : HandlerV) (callback : Nat) : Bool :=
  match ex with
  | .listH fs => !(fs.contains callback)
  | .single g => g != callback

theorem shouldMerge_iff (ex : HandlerV) (callback : Nat) :
    shouldMerge ex callback = true ↔ callback ∉ ex.toFns := by
  cases ex with
  | single g =>
    simp only [shouldMerge, HandlerV.toFns, List.mem_singleton, bne_iff_ne]
    exact ⟨fun h h2 => h h2.symm, fun h h2 => h h2.symm⟩
  | listH fs =>
    simp [shouldMerge, HandlerV.toFns]

/-- `transformModel (options, data)` (create-component.js lines 326-350):
store the v-model value under the model prop in `data.attrs`, and merge the
v-model callback into `data.onEvents[event]`: with no existing listener the
callback is installed directly; with existing listener(s) not containing
the callback the slot becomes `[callback].concat(existing)`; otherwise the
slot is left unchanged. -/
def transformModel (options : CompOptions) (data : ModelData) : ModelData :=
  let prop := modelProp options
  let event := modelEvent options
  let attrs2 := assocSet data.attrs prop data.modelValue
  let existing := assocGet data.onEvents event
  let callback := data.modelCallback
  let on2 :=
    match existing with
    | some ex =>
      if shouldMerge ex callback then
        assocSet data.onEvents event (.listH (callback :: ex.toFns))
      else data.onEvents
    | none => assocSet data.onEvents event (.single callback)
  { data with attrs := attrs2, onEvents := on2 }

/-- Counterexample to C7 as stated: with an existing `input` listener `2`
and v-model callback `1`, the merged slot is `[1, 2]` — the callback is
prepended (`[callback].concat(existing)`), not appended, so the claimed
appended form `[2, 1]` is wrong. -/
theorem transformModel_append_counterexample :
    assocGet (transformModel ⟨none⟩
        ⟨[], [("input", HandlerV.single 2)], 9, 1⟩).onEvents "input" =
      some (HandlerV.listH [1, 2]) ∧
    some (HandlerV.listH [1, 2]) ≠ some (HandlerV.listH [2, 1]) := by
  refine ⟨by decide, ?_⟩
  decide

/-- C7 (amended): `transformModel` desugars v-model into
`data.attrs[prop] = value` with `prop` defaulting to `value`, plus an
event-listener merge on the model event defaulting to `input`: if no
listener exists the callback is installed directly; if listeners exist and
do not already contain the callback, the callback is prepended to them
(`[callback].concat(existing)`) to form a combined list rather than
replacing them; if the callback is already present nothing changes. -/
theorem transformModel_merge (options : CompOptions) (data : ModelData) :
    (options.model = none →
      modelProp options = "value" ∧ modelEvent options = "input") ∧
    assocGet (transformModel options data).attrs (modelProp options) =
      some data.modelValue ∧
    (assocGet data.onEvents (modelEvent options) = none →
      (assocGet (transformModel options data).onEvents (modelEvent options)).map
        HandlerV.toFns = some [data.modelCallback]) ∧
    (∀ ex, assocGet data.onEvents (modelEvent options) = some ex →
      data.modelCallback ∉ ex.toFns →
      (assocGet (transformModel options data).onEvents (modelEvent options)).map
        HandlerV.toFns = some (data.modelCallback :: ex.toFns)) ∧
    (∀ ex, assocGet data.onEvents (modelEvent options) = some ex →
      data.modelCallback ∈ ex.toFns →
      (transformModel options data).onEvents = data.onEvents) := by
  refine ⟨?_, ?_, ?_, ?_, ?_⟩
  · intro h
    simp [modelProp, modelEvent, h]
  · simp [transformModel, assocGet_set_self]
  · intro h
    simp [transformModel, h, assocGet_set_self, HandlerV.toFns]
  · intro ex hex hnot
    have hcond : shouldMerge ex data.modelCallback = true :=
      (shouldMerge_iff ex data.modelCallback).mpr hnot
    simp [transformModel, hex, hcond, assocGet_set_self, HandlerV.toFns]
  · intro ex hex hmem
    have hcond : shouldMerge ex data.modelCallback = false := by
      rw [Bool.eq_false_iff]
      intro h
      exact (shouldMerge_iff ex data.modelCallback).mp h hmem
    simp [transformModel, hex, hcond]

/-- Witness for C7 (amended) at concrete inputs: custom model config
`{prop: checked, event: change}`; an existing listener list `[3]` not
containing callback `1` becomes `[1, 3]`; and the default names apply when
no model config is present. -/
theorem transformModel_merge_witness :
    (modelProp ⟨none⟩ = "value" ∧ modelEvent ⟨none⟩ = "input") ∧
    assocGet (transformModel ⟨some ⟨some "checked", some "change"⟩⟩
        ⟨[], [("change", HandlerV.listH [3])], 9, 1⟩).attrs "checked" =
      some 9 ∧
    (assocGet (transformModel ⟨some ⟨some "checked", some "change"⟩⟩
        ⟨[], [("change", HandlerV.listH [3])], 9, 1⟩).onEvents "change").map
      HandlerV.toFns = some [1, 3] := by
  have h1 := transformModel_merge ⟨none⟩ ⟨[], [], 0, 0⟩
  have h2 := transformModel_merge ⟨some ⟨some "checked", some "change"⟩⟩
    ⟨[], [("change", HandlerV.listH [3])], 9, 1⟩
  refine ⟨h1.1 rfl, h2.2.1, ?_⟩
  have h3 := h2.2.2.2.1 (HandlerV.listH [3]) rfl (by decide)
  simpa [HandlerV.toFns] using h3

/-! ## Optimizer second pass: `markStaticRoots`
(src/src/compiler/optimizer.js lines 103-135)

`elem` is a type-1 element carrying the `static`/`once` flags computed by
the first pass, whether it has `v-for`, its children, the alternative
branches of its `ifConditions` (the source list's entry 0 is the node
itself, and both optimizer walks iterate from index 1, so only the true
alternatives are stored), and the `staticRoot`/`staticInFor` output flags.
`expr` is a type-2 interpolation node and `text` a type-3 text node (text
nodes are exactly the nodes `isStatic` classifies as static
unconditionally, so "a single static text child" is "a single type-3
child"). -/

inductive ASTM where
  | elem (staticFlag once forFlag : Bool) (children : List ASTM)
      (ifBlocks : List ASTM) (staticRoot staticInFor : Bool)
  | expr (e : Nat)
  | text (s : String)

def isTextNode : ASTM → Bool
  | .text _ => true
  | _ => false

def rootFlag : ASTM → Bool
  | .elem _ _ _ _ _ r _ => r
  | _ => false

def childrenOf : ASTM → List ASTM
  | .elem _ _ _ c _ _ _ => c
  | _ => []

def ifBlocksOf : ASTM → List ASTM
  | .elem _ _ _ _ b _ _ => b
  | _ => []

/-- `markStaticRoots (node, isInFor)` (optimizer.js lines 103-135): on a
type-1 node, update `staticInFor` when the node is static or has `v-once`;
mark the node a static root and stop exactly when it is static, has
children, and the children are not a single text node; otherwise clear
`staticRoot` and recurse into the children (with `isInFor || !!node.for`)
and into the `ifConditions` branches (with `isInFor`). -/
def markStaticRoots (node : ASTM) (isInFor : Bool) : ASTM :=
  match node with
  | .elem st once forF children ifBlocks _ staticInFor0 =>
    let sif := if st || once then isInFor else staticInFor0
    if st && children.length != 0 &&
        !(children.length == 1 && isTextNode (children.headD (.text ""))) then
      .elem st once forF children ifBlocks true sif
    else
      .elem st once forF
        (children.attach.map fun c => markStaticRoots c.1 (isInFor || forF))
        (ifBlocks.attach.map fun b => markStaticRoots b.1 isInFor)
        false sif
  | n => n
termination_by sizeOf node
decreasing_by
  all_goals simp_wf
  · have h1 := List.sizeOf_lt_of_mem c.2
    omega
  · have h1 := List.sizeOf_lt_of_mem b.2
    omega

theorem attach_map_fn {α : Type} [SizeOf α] (l : List α) (g : α → α) :
    (l.attach.map fun c => g c.1) = l.map g := by
  induction l with
  | nil => rfl
  | cons h t ih => simp

/-- The static-root test of `markStaticRoots`, unfolded into one equation:
either mark the node a root without touching its children, or clear the
flag and recurse. -/
theorem markStaticRoots_elem (st once forF : Bool)
    (children ifBlocks : List ASTM) (sr0 sif0 f : Bool) :
    markStaticRoots (.elem st once forF children ifBlocks sr0 sif0) f =
      if st && children.length != 0 &&
          !(children.length == 1 && isTextNode (children.headD (.text ""))) then
        .elem st once forF children ifBlocks true
          (if st || once then f else sif0)
      else
        .elem st once forF (children.map (markStaticRoots · (f || forF)))
          (ifBlocks.map (markStaticRoots · f)) false
          (if st || once then f else sif0) := by
  by_cases hc : (st && children.length != 0 &&
      !(children.length == 1 && isTextNode (children.headD (.text "")))) = true
  · rw [markStaticRoots.eq_def]
    simp [hc]
  · rw [markStaticRoots.eq_def]
    rw [Bool.not_eq_true] at hc
    simp [hc, attach_map_fn]

/-- The Bool static-root condition, propositionally. -/
theorem staticRootCond_iff (st : Bool) (children : List ASTM) :
    (st && children.length != 0 &&
      !(children.length == 1 && isTextNode (children.headD (.text "")))) =
        true ↔
    (st = true ∧ children ≠ [] ∧
      ¬(children.length = 1 ∧
        isTextNode (children.headD (.text "")) = true)) := by
  constructor
  · intro h
    simp only [Bool.and_eq_true, Bool.not_eq_true'] at h
    obtain ⟨⟨h1, h2⟩, h3⟩ := h
    refine ⟨h1, ?_, ?_⟩
    · intro hnil
      rw [hnil] at h2
      simp at h2
    · intro hpair
      obtain ⟨h4, h5⟩ := hpair
      rw [Bool.and_eq_false_iff] at h3
      rcases h3 with h3 | h3
      · rw [beq_eq_false_iff_ne] at h3
        exact h3 h4
      · rw [h5] at h3
        simp at h3
  · intro hyp
    obtain ⟨h1, h2, h3⟩ := hyp
    simp only [Bool.and_eq_true, Bool.not_eq_true']
    refine ⟨⟨h1, ?_⟩, ?_⟩
    · rw [bne_iff_ne]
      intro h4
      exact h2 (List.length_eq_zero.mp h4)
    · rw [Bool.and_eq_false_iff]
      by_cases h4 : children.length = 1
      · right
        rw [Bool.eq_false_iff]
        exact fun h5 => h3 ⟨h4, h5⟩
      · left
        rw [beq_eq_false_iff_ne]
        exact h4

/-- C8: a type-1 node is marked as a static root exactly when it is static,
has at least one child, and its children are not exactly one text node; a
node marked as a static root keeps its children and branches untouched (no
further root-marking below it), while a node that fails the test has its
children visited with `isInFor || v-for` and its conditional branches
visited with `isInFor` to find roots deeper in the tree. -/
theorem markStaticRoots_spec (st once forF : Bool)
    (children ifBlocks : List ASTM) (sr0 sif0 f : Bool) :
    (rootFlag (markStaticRoots (.elem st once forF children ifBlocks sr0 sif0)
        f) = true ↔
      (st = true ∧ children ≠ [] ∧
        ¬(children.length = 1 ∧
          isTextNode (children.headD (.text "")) = true))) ∧
    (rootFlag (markStaticRoots (.elem st once forF children ifBlocks sr0 sif0)
        f) = true →
      childrenOf (markStaticRoots (.elem st once forF children ifBlocks sr0
        sif0) f) = children ∧
      ifBlocksOf (markStaticRoots (.elem st once forF children ifBlocks sr0
        sif0) f) = ifBlocks) ∧
    (rootFlag (markStaticRoots (.elem st once forF children ifBlocks sr0 sif0)
        f) = false →
      childrenOf (markStaticRoots (.elem st once forF children ifBlocks sr0
        sif0) f) = children.map (markStaticRoots · (f || forF)) ∧
      ifBlocksOf (markStaticRoots (.elem st once forF children ifBlocks sr0
        sif0) f) = ifBlocks.map (markStaticRoots · f)) := by
  rw [markStaticRoots_elem]
  by_cases hc : (st && children.length != 0 &&
      !(children.length == 1 && isTextNode (children.headD (.text "")))) = true
  · simp only [hc, if_true, rootFlag, childrenOf, ifBlocksOf]
    exact ⟨⟨fun _ => (staticRootCond_iff st children).mp hc, fun _ => trivial⟩,
      fun _ => ⟨trivial, trivial⟩, fun h => by simp at h⟩
  · rw [Bool.not_eq_true] at hc
    simp only [hc, Bool.false_eq_true, if_false, rootFlag, childrenOf,
      ifBlocksOf]
    refine ⟨?_, fun h => by simp at h, fun _ => ⟨trivial, trivial⟩⟩
    constructor
    · intro h
      simp at h
    · intro hr
      rw [← staticRootCond_iff st children] at hr
      rw [hc] at hr
      simp at hr

/-- Witness for C8: a static element with two text children is marked as a
static root with its children untouched; a static element with a single
text child is not marked, and its child list is visited (here: unchanged
text nodes). -/
theorem markStaticRoots_spec_witness :
    rootFlag (markStaticRoots
      (.elem true false false [ASTM.text "a", ASTM.text "b"] [] false false)
      false) = true ∧
    childrenOf (markStaticRoots
      (.elem true false false [ASTM.text "a", ASTM.text "b"] [] false false)
      false) = [ASTM.text "a", ASTM.text "b"] ∧
    rootFlag (markStaticRoots
      (.elem true false false [ASTM.text "a"] [] false false) false) =
      false ∧
    childrenOf (markStaticRoots
      (.elem true false false [ASTM.text "a"] [] false false) false) =
      [ASTM.text "a"].map (markStaticRoots · false) := by
  have h1 := markStaticRoots_spec true false false
    [ASTM.text "a", ASTM.text "b"] [] false false false
  have h2 := markStaticRoots_spec true false false
    [ASTM.text "a"] [] false false false
  have hr1 : rootFlag (markStaticRoots
      (.elem true false false [ASTM.text "a", ASTM.text "b"] [] false false)
      false) = true :=
    h1.1.mpr ⟨rfl, by simp, by intro h; simp at h⟩
  have hr2 : rootFlag (markStaticRoots
      (.elem true false false [ASTM.text "a"] [] false false) false) =
      false := by
    rw [Bool.eq_false_iff]
    intro h
    have h3 := h2.1.mp h
    exact h3.2.2 ⟨by simp, by simp [isTextNode]⟩
  exact ⟨hr1, (h1.2.1 hr1).1, hr2, (h2.2.2 hr2).1⟩

/-! ## HTML parser: `parseHTML`
(src/src/compiler/parser/html-parser.js)

The tokenizer loop is embedded over `List Char`.  Its anchored regular
expressions (`attribute`, `dynamicArgAttribute`, `ncname`/`qnameCapture`,
`startTagOpen`, `startTagClose`, `endTag`, `doctype`, `comment`,
`conditionalComment`) are implemented as character-scanning matchers that
return the matched payload together with the number of characters the match
consumes; these regexes have no observable backtracking beyond the optional
groups implemented below.  The callbacks (`options.start/end/chars/comment/
warn`) are modelled as an emitted event list (all callbacks supplied, as the
template parser does), and the build is the development one (warnings on,
`outputSourceRange` off, so attribute source offsets are not recorded).
`unicodeRegExp` (core/util/lang) and `isNonPhrasingTag` (web/compiler/util)
are defined outside the provided sources, so they are parameters of
`ParseOptions`; all theorems hold for every choice. -/

/-- JS `\s` (whitespace) characters. -/
def isWhitespaceChar (c : Char) : Bool :=
  c == ' ' || c == '\t' || c == '\n' || c == '\r' ||
  c.toNat == 0x0b || c.toNat == 0x0c || c.toNat == 0xa0 ||
  c.toNat == 0x1680 || (0x2000 ≤ c.toNat && c.toNat ≤ 0x200a) ||
  c.toNat == 0x2028 || c.toNat == 0x2029 || c.toNat == 0x202f ||
  c.toNat == 0x205f || c.toNat == 0x3000 || c.toNat == 0xfeff

def isAsciiLetter (c : Char) : Bool :=
  ('a' ≤ c && c ≤ 'z') || ('A' ≤ c && c ≤ 'Z')

def isAsciiDigit (c : Char) : Bool :=
  '0' ≤ c && c ≤ '9'

/-- JS `\w`. -/
def isWordChar (c : Char) : Bool :=
  isAsciiLetter c || isAsciiDigit c || c == '_'

/-- The attribute-name class `[^\s"'<>\/=]`. -/
def isAttrNameChar (c : Char) : Bool :=
  !(isWhitespaceChar c || c == '"' || c == '\'' || c == '<' || c == '>' ||
    c == '/' || c == '=')

/-- The unquoted attribute-value class (excludes whitespace, quotes, `=`,
angle brackets and the backtick, code point 96). -/
def isUnquotedValueChar (c : Char) : Bool :=
  !(isWhitespaceChar c || c == '"' || c == '\'' || c == '=' || c == '<' ||
    c == '>' || c.toNat == 96)

def lowerChars (l : List Char) : List Char :=
  l.map Char.toLower

/-- `ncname` start: `[a-zA-Z_]`. -/
def isNcnameStart (c : Char) : Bool :=
  isAsciiLetter c || c == '_'

/-- Tokenizer collaborators supplied by the caller or defined outside the
provided sources. -/
structure ParseOptions where
  expectHTML : Bool
  isUnaryTag : List Char → Bool
  canBeLeftOpenTag : List Char → Bool
  shouldDecodeNewlines : Bool
  shouldDecodeNewlinesForHref : Bool
  shouldKeepComment : Bool
  ncnameExtra : Char → Bool
  isNonPhrasingTag : List Char → Bool

/-- `ncname` continuation: `[\-\.0-9_a-zA-Z]` plus the `unicodeRegExp`
character set. -/
def isNcnameChar (o : ParseOptions) (c : Char) : Bool :=
  c == '-' || c == '.' || isAsciiDigit c || c == '_' || isAsciiLetter c ||
  o.ncnameExtra c

/-- `isPlainTextElement`: `makeMap('script,style,textarea', true)`. -/
def isPlainTextElement (t : List Char) : Bool :=
  lowerChars t == "script".toList || lowerChars t == "style".toList ||
  lowerChars t == "textarea".toList

/-- `isIgnoreNewlineTag`: `makeMap('pre,textarea', true)`. -/
def isIgnoreNewlineTag (t : List Char) : Bool :=
  lowerChars t == "pre".toList || lowerChars t == "textarea".toList

/-- `shouldIgnoreFirstNewline (tag, html)`. -/
def shouldIgnoreFirstNewlineF (tag html : List Char) : Bool :=
  isIgnoreNewlineTag tag && (html.head? == some '\n')

/-- `decodeAttr`: replace the entities of `decodingMap`, including the
newline/tab entities only when `shouldDecodeNewlines` asks for them. -/
def decodeAttrChars (withNewlines : Bool) (l : List Char) : List Char :=
  match l with
  | [] => []
  | '&' :: rest =>
    if ['l', 't', ';'].isPrefixOf rest then
      '<' :: decodeAttrChars withNewlines (rest.drop 3)
    else if ['g', 't', ';'].isPrefixOf rest then
      '>' :: decodeAttrChars withNewlines (rest.drop 3)
    else if ['q', 'u', 'o', 't', ';'].isPrefixOf rest then
      '"' :: decodeAttrChars withNewlines (rest.drop 5)
    else if ['a', 'm', 'p', ';'].isPrefixOf rest then
      '&' :: decodeAttrChars withNewlines (rest.drop 4)
    else if ['#', '3', '9', ';'].isPrefixOf rest then
      '\'' :: decodeAttrChars withNewlines (rest.drop 4)
    else if withNewlines && ['#', '1', '0', ';'].isPrefixOf rest then
      '\n' :: decodeAttrChars withNewlines (rest.drop 4)
    else if withNewlines && ['#', '9', ';'].isPrefixOf rest then
      '\t' :: decodeAttrChars withNewlines (rest.drop 3)
    else '&' :: decodeAttrChars withNewlines rest
  | c :: rest => c :: decodeAttrChars withNewlines rest
termination_by l.length
decreasing_by
  all_goals simp [List.length_drop]
  all_goals omega

/-- First index of `c` (JS `indexOf`). -/
def charIdx (c : Char) : List Char → Option Nat
  | [] => none
  | a :: rest => if a == c then some 0 else (charIdx c rest).map (· + 1)

theorem charIdx_lt_length (c : Char) (l : List Char) (j : Nat)
    (h : charIdx c l = some j) : j < l.length := by
  induction l generalizing j with
  | nil => simp [charIdx] at h
  | cons a rest ih =>
    rw [charIdx] at h
    by_cases ha : (a == c) = true
    · rw [if_pos ha] at h
      injection h with h2
      rw [← h2]
      simp
    · rw [if_neg ha, Option.map_eq_some'] at h
      obtain ⟨j2, hj2, hj⟩ := h
      have h3 := ih j2 hj2
      simp
      omega

/-- `rest.indexOf('<', 1)`. -/
def charIdxFrom1 (c : Char) (l : List Char) : Option Nat :=
  (charIdx c (l.drop 1)).map (· + 1)

/-- First index at which `needle` occurs (JS `String.indexOf`). -/
def findSubstr (needle : List Char) (l : List Char) : Option Nat :=
  if needle.isPrefixOf l then some 0
  else
    match l with
    | [] => none
    | _ :: t => (findSubstr needle t).map (· + 1)

/-- JS `String.substring` (clamps and swaps its arguments). -/
def substringJS (l : List Char) (a b : Nat) : List Char :=
  (l.drop (min a b)).take (max a b - min a b)

/-- `ncname` matcher: the matched name and its length. -/
def matchNcname (o : ParseOptions) (l : List Char) :
    Option (List Char × Nat) :=
  match l with
  | [] => none
  | c :: rest =>
    if isNcnameStart c then
      let more := rest.takeWhile (isNcnameChar o)
      some (c :: more, 1 + more.length)
    else none

/-- `qnameCapture`: `((ncname\:)?ncname)`; the optional prefixed form is
tried first, backtracking to the bare name when no second name follows the
colon. -/
def matchQname (o : ParseOptions) (l : List Char) :
    Option (List Char × Nat) :=
  match matchNcname o l with
  | none => none
  | some (n1, k1) =>
    match l.drop k1 with
    | ':' :: r2 =>
      match matchNcname o r2 with
      | some (n2, k2) => some (n1 ++ ':' :: n2, k1 + 1 + k2)
      | none => some (n1, k1)
    | _ => some (n1, k1)

/-- `startTagOpen = ^<qname`. -/
def matchStartTagOpen (o : ParseOptions) (l : List Char) :
    Option (List Char × Nat) :=
  match l with
  | '<' :: rest => (matchQname o rest).map (fun p => (p.1, p.2 + 1))
  | _ => none

/-- `endTag = ^<\/qname[^>]*>`. -/
def matchEndTag (o : ParseOptions) (l : List Char) :
    Option (List Char × Nat) :=
  match l with
  | '<' :: '/' :: rest =>
    match matchQname o rest with
    | some (n, k) =>
      let skip := (rest.drop k).takeWhile (fun c => c != '>')
      match (rest.drop k).dropWhile (fun c => c != '>') with
      | '>' :: _ => some (n, 2 + k + skip.length + 1)
      | _ => none
    | none => none
  | _ => none

/-- `startTagClose = ^\s*(\/?)>`: returns the captured unary slash and the
matched length. -/
def matchStartTagClose (l : List Char) : Option (Bool × Nat) :=
  let ws := l.takeWhile isWhitespaceChar
  match l.dropWhile isWhitespaceChar with
  | '/' :: '>' :: _ => some (true, ws.length + 2)
  | '>' :: _ => some (false, ws.length + 1)
  | _ => none

/-- `doctype = ^<!DOCTYPE [^>]+>` (case-insensitive). -/
def matchDoctype (l : List Char) : Option Nat :=
  if lowerChars (l.take 10) == "<!doctype ".toList then
    let body := (l.drop 10).takeWhile (fun c => c != '>')
    if body.isEmpty then none
    else
      match (l.drop 10).dropWhile (fun c => c != '>') with
      | '>' :: _ => some (10 + body.length + 1)
      | _ => none
  else none

/-- A matched attribute: the raw captured name and value (the value is
`none` when the optional `=value` group matched empty). -/
structure MAttr where
  name : List Char
  value : Option (List Char)
  deriving Repr, DecidableEq

/-- The optional value part shared by `attribute` and
`dynamicArgAttribute`: `(?:\s*(=)\s*(?:"([^"]*)"+|'([^']*)'+|([^\s"'=<>]+
minus backtick)))?`; returns the captured value and the consumed length
(0 when the optional group matches empty). -/
def matchAttrValue (l : List Char) : Option (List Char) × Nat :=
  let ws := l.takeWhile isWhitespaceChar
  match l.dropWhile isWhitespaceChar with
  | '=' :: r4 =>
    let ws2 := r4.takeWhile isWhitespaceChar
    match r4.dropWhile isWhitespaceChar with
    | '"' :: r6 =>
      let v := r6.takeWhile (fun c => c != '"')
      (match r6.dropWhile (fun c => c != '"') with
       | '"' :: r8 =>
         let qs := r8.takeWhile (fun c => c == '"')
         (some v, ws.length + 1 + ws2.length + 1 + v.length + 1 + qs.length)
       | _ => (none, 0))
    | '\'' :: r6 =>
      let v := r6.takeWhile (fun c => c != '\'')
      (match r6.dropWhile (fun c => c != '\'') with
       | '\'' :: r8 =>
         let qs := r8.takeWhile (fun c => c == '\'')
         (some v, ws.length + 1 + ws2.length + 1 + v.length + 1 + qs.length)
       | _ => (none, 0))
    | r5 =>
      let v := r5.takeWhile isUnquotedValueChar
      if v.isEmpty then (none, 0)
      else (some v, ws.length + 1 + ws2.length + v.length)
  | _ => (none, 0)

/-- `attribute = ^\s*([^\s"'<>\/=]+)` followed by the optional value. -/
def matchAttribute (l : List Char) : Option (MAttr × Nat) :=
  let ws := l.takeWhile isWhitespaceChar
  let r1 := l.dropWhile isWhitespaceChar
  let nm := r1.takeWhile isAttrNameChar
  if nm.isEmpty then none
  else
    let vp := matchAttrValue (r1.drop nm.length)
    some (⟨nm, vp.1⟩, ws.length + nm.length + vp.2)

/-- The dynamic-argument name prefix `(?:v-[\w-]+:|@|:|#)`. -/
def matchDynPrefix (l : List Char) : Option (List Char × Nat) :=
  match l with
  | '@' :: _ => some (['@'], 1)
  | ':' :: _ => some ([':'], 1)
  | '#' :: _ => some (['#'], 1)
  | 'v' :: '-' :: r =>
    let w := r.takeWhile (fun c => isWordChar c || c == '-')
    if w.isEmpty then none
    else
      match r.drop w.length with
      | ':' :: _ => some ('v' :: '-' :: (w ++ [':']), 2 + w.length + 1)
      | _ => none
  | _ => none

/-- The lazy bracket body `\[[^=]+?\]`: at least one non-`=` character up to
the first `]`; returns the inner characters and the consumed length
including the closing bracket. -/
def lazyBracketGo (acc : List Char) (l : List Char) :
    Option (List Char × Nat) :=
  match l with
  | [] => none
  | ']' :: _ => some (acc.reverse, acc.length + 1)
  | c :: rest => if c == '=' then none else lazyBracketGo (c :: acc) rest

def lazyBracket (l : List Char) : Option (List Char × Nat) :=
  match l with
  | [] => none
  | c :: rest => if c == '=' then none else lazyBracketGo [c] rest

/-- `dynamicArgAttribute`: the dynamic prefix, a lazy bracket body, a run of
attribute-name characters, then the optional value. -/
def matchDynamicAttr (l : List Char) : Option (MAttr × Nat) :=
  let ws := l.takeWhile isWhitespaceChar
  let r1 := l.dropWhile isWhitespaceChar
  match matchDynPrefix r1 with
  | none => none
  | some (pfx, np) =>
    match r1.drop np with
    | '[' :: r3 =>
      match lazyBracket r3 with
      | some (inner, nb) =>
        let post := (r3.drop nb).takeWhile isAttrNameChar
        let vp := matchAttrValue ((r3.drop nb).dropWhile isAttrNameChar)
        some (⟨pfx ++ '[' :: (inner ++ ']' :: post), vp.1⟩,
          ws.length + np + 1 + nb + post.length + vp.2)
      | none => none
    | _ => none

theorem matchAttribute_progress (l : List Char) (a : MAttr) (n : Nat)
    (h : matchAttribute l = some (a, n)) : (l.drop n).length < l.length := by
  unfold matchAttribute at h
  by_cases hnm : ((l.dropWhile isWhitespaceChar).takeWhile
      isAttrNameChar).isEmpty = true
  · simp [hnm] at h
  · simp only [hnm, Bool.false_eq_true, if_false, Option.some.injEq,
      Prod.mk.injEq] at h
    have hne : (l.dropWhile isWhitespaceChar).takeWhile isAttrNameChar ≠
        [] := by
      intro he
      rw [he] at hnm
      simp at hnm
    have h1 : 0 < ((l.dropWhile isWhitespaceChar).takeWhile
        isAttrNameChar).length := List.length_pos.mpr hne
    have h2 : l ≠ [] := by
      intro he
      rw [he] at hne
      simp at hne
    have h3 : 0 < l.length := List.length_pos.mpr h2
    rw [List.length_drop]
    omega

theorem matchDynamicAttr_progress (l : List Char) (a : MAttr) (n : Nat)
    (h : matchDynamicAttr l = some (a, n)) : (l.drop n).length < l.length := by
  unfold matchDynamicAttr at h
  simp only [] at h
  cases hp : matchDynPrefix (l.dropWhile isWhitespaceChar) with
  | none =>
    rw [hp] at h
    simp at h
  | some pr =>
    obtain ⟨pfx, np⟩ := pr
    rw [hp] at h
    simp only [] at h
    have h2 : l ≠ [] := by
      intro he
      rw [he] at hp
      simp [matchDynPrefix] at hp
    have h3 : 0 < l.length := List.length_pos.mpr h2
    cases hr : (l.dropWhile isWhitespaceChar).drop np with
    | nil =>
      rw [hr] at h
      simp at h
    | cons c r3 =>
      rw [hr] at h
      split at h
      · split at h
        · simp only [Option.some.injEq, Prod.mk.injEq] at h
          rw [List.length_drop]
          omega
        · simp at h
      · simp at h

/-- `matchDynamicAttr || matchAttribute`, as the start-tag attribute loop
tries them. -/
def matchAttrEither (l : List Char) : Option (MAttr × Nat) :=
  match matchDynamicAttr l with
  | some r => some r
  | none => matchAttribute l

theorem matchAttrEither_progress (l : List Char) (a : MAttr) (n : Nat)
    (h : matchAttrEither l = some (a, n)) : (l.drop n).length < l.length := by
  unfold matchAttrEither at h
  cases hd : matchDynamicAttr l with
  | some r =>
    rw [hd] at h
    injection h with h2
    rw [h2] at hd
    exact matchDynamicAttr_progress l a n hd
  | none =>
    rw [hd] at h
    exact matchAttribute_progress l a n h

/-- The result of `parseStartTag`: the tag name, raw attribute matches, the
source positions of the whole start tag, and the captured unary slash. -/
structure StartTagMatch where
  tagName : List Char
  attrs : List MAttr
  startPos : Nat
  unarySlash : Bool
  endPos : Nat
  deriving Repr, DecidableEq

/-- The attribute loop of `parseStartTag`:
`while (!(end = html.match(startTagClose)) && (attr = dynamicArg || attr))`.
Returns the characters consumed by the attributes, the collected attribute
matches, and — when the loop stopped on a start-tag close — the captured
slash and the close's length. -/
def parseStartTagLoop (l : List Char) (acc : List MAttr) :
    Nat × List MAttr × Option (Bool × Nat) :=
  match matchStartTagClose l with
  | some (slash, n) => (0, acc, some (slash, n))
  | none =>
    match hm : matchAttrEither l with
    | some (a, n) =>
      let r := parseStartTagLoop (l.drop n) (acc ++ [a])
      (n + r.1, r.2.1, r.2.2)
    | none => (0, acc, none)
termination_by l.length
decreasing_by
  exact matchAttrEither_progress l a n hm

/-- `parseStartTag` (html-parser.js lines 213-246): consume the open tag and
its attributes; if the start-tag close is found, also consume it and return
the match, otherwise report no match — with the opened part nevertheless
consumed, exactly as the source's `advance` calls mutate `html`. -/
def parseStartTag (o : ParseOptions) (html : List Char) (index : Nat) :
    Nat × Option StartTagMatch :=
  match matchStartTagOpen o html with
  | none => (0, none)
  | some (tagName, k0) =>
    let r := parseStartTagLoop (html.drop k0) []
    match r.2.2 with
    | some (slash, closeLen) =>
      let total := k0 + r.1 + closeLen
      (total, some ⟨tagName, r.2.1, index, slash, index + total⟩)
    | none => (k0 + r.1, none)

structure StackTag where
  tag : List Char
  lowerCasedTag : List Char
  deriving Repr, DecidableEq

inductive WarnKind where
  | noMatchingEndTag (tag : List Char)
  | malformedEnd (rest : List Char)
  deriving Repr, DecidableEq

/-- The tokenizer's callback invocations, recorded in order:
`options.chars` (positions present only on the three-argument calls),
`options.comment`, `options.start`, `options.end` and `options.warn`. -/
inductive PEvent where
  | charsE (text : List Char) (startPos endPos : Option Nat)
  | commentE (text : List Char) (startPos endPos : Nat)
  | startE (tag : List Char) (attrs : List MAttr) (unary : Bool)
      (startPos endPos : Nat)
  | endE (tag : List Char) (startPos endPos : Nat)
  | warnE (w : WarnKind)
  deriving Repr, DecidableEq

/-- `parseEndTag` (html-parser.js lines 325-392).  The stack is kept with
its top at the head.  With a tag name: find the closest (topmost) open tag
of the same lowercased name, close everything above it (warning for each
entry above the match), pop them and reset `lastTag` (`pos = 0` leaves it
falsy, modelled as `none`); with no match, `</br>` and `</p>` get their
special re-emission; with no tag name (the final cleanup), close and warn
about every open tag. -/
def parseEndTag (stack : List StackTag) (lastTag : Option (List Char))
    (tagName : Option (List Char)) (startP endP : Nat) :
    List StackTag × Option (List Char) × List PEvent :=
  match tagName with
  | some t =>
    let lower := lowerChars t
    match stack.findIdx? (fun s => s.lowerCasedTag == lower) with
    | some j =>
      let popped := stack.take (j + 1)
      let events := popped.enum.flatMap (fun p =>
        (if p.1 < j then [PEvent.warnE (.noMatchingEndTag p.2.tag)]
         else []) ++ [PEvent.endE p.2.tag startP endP])
      let stack2 := stack.drop (j + 1)
      (stack2, stack2.head?.map StackTag.tag, events)
    | none =>
      if lower == "br".toList then
        (stack, lastTag, [PEvent.startE t [] true startP endP])
      else if lower == "p".toList then
        (stack, lastTag, [PEvent.startE t [] false startP endP,
          PEvent.endE t startP endP])
      else (stack, lastTag, [])
  | none =>
    (([] : List StackTag), none,
      stack.flatMap (fun s =>
        [PEvent.warnE (.noMatchingEndTag s.tag),
         PEvent.endE s.tag startP endP]))

/-- `handleStartTag` (html-parser.js lines 256-313): apply the
`expectHTML` implicit closes (`p` before a non-phrasing tag; a
can-be-left-open tag repeated), compute unariness, decode the attribute
values, push non-unary tags onto the stack, and emit `options.start`. -/
def handleStartTag (o : ParseOptions) (stack : List StackTag)
    (lastTag : Option (List Char)) (m : StartTagMatch) (curIdx : Nat) :
    List StackTag × Option (List Char) × List PEvent :=
  let s1 :=
    if o.expectHTML then
      let sA :=
        if lastTag = some "p".toList ∧ o.isNonPhrasingTag m.tagName then
          parseEndTag stack lastTag (some "p".toList) curIdx curIdx
        else (stack, lastTag, [])
      if o.canBeLeftOpenTag m.tagName ∧ sA.2.1 = some m.tagName then
        let sB := parseEndTag sA.1 sA.2.1 (some m.tagName) curIdx curIdx
        (sB.1, sB.2.1, sA.2.2 ++ sB.2.2)
      else sA
    else (stack, lastTag, ([] : List PEvent))
  let unary := o.isUnaryTag m.tagName || m.unarySlash
  let attrs := m.attrs.map (fun a =>
    let sdn := if m.tagName = "a".toList ∧ a.name = "href".toList then
      o.shouldDecodeNewlinesForHref else o.shouldDecodeNewlines
    ({ name := a.name,
       value := some (decodeAttrChars sdn (a.value.getD [])) } : MAttr))
  let stack2 := if !unary then ⟨m.tagName, lowerChars m.tagName⟩ :: s1.1
    else s1.1
  let lastTag2 := if !unary then some m.tagName else s1.2.1
  (stack2, lastTag2,
    s1.2.2 ++ [PEvent.startE m.tagName attrs unary m.startPos m.endPos])

/-- `text.replace(/<!\--([\s\S]*?)-->/g, '$1')`: drop every lazy
comment wrapper, keeping its inner text. -/
def stripComments : List Char → List Char
  | [] => []
  | c :: t =>
    match findSubstr ("<!--".toList) (c :: t) with
    | none => c :: t
    | some i =>
      match findSubstr ("-->".toList) ((c :: t).drop (i + 4)) with
      | none => c :: t
      | some j =>
        (c :: t).take i ++ ((c :: t).drop (i + 4)).take j ++
          stripComments ((c :: t).drop (i + 4 + j + 3))
termination_by l => l.length
decreasing_by
  simp only [List.length_drop, List.length_cons]
  omega

/-- `text.replace(/<!\[CDATA\[([\s\S]*?)]]>/g, '$1')`. -/
def stripCDATA : List Char → List Char
  | [] => []
  | c :: t =>
    match findSubstr ("<![CDATA[".toList) (c :: t) with
    | none => c :: t
    | some i =>
      match findSubstr ("]]>".toList) ((c :: t).drop (i + 9)) with
      | none => c :: t
      | some j =>
        (c :: t).take i ++ ((c :: t).drop (i + 9)).take j ++
          stripCDATA ((c :: t).drop (i + 9 + j + 3))
termination_by l => l.length
decreasing_by
  simp only [List.length_drop, List.length_cons]
  omega

/-- The comment/CDATA unwrapping applied to plaintext contents when the
stacked tag is neither a plain-text element nor noscript. -/
def stripWrapped (l : List Char) : List Char :=
  stripCDATA (stripComments l)

/-- Does `(</stackedTag[^>]*>)` (case-insensitively) match at the head of
`l`?  Returns the matched length. -/
def tryMatchEndAt (tag : List Char) (l : List Char) : Option Nat :=
  if ("</".toList ++ tag).isPrefixOf (lowerChars l) then
    let rest := l.drop (2 + tag.length)
    let mid := rest.takeWhile (fun c => c != '>')
    match rest.drop mid.length with
    | '>' :: _ => some (2 + tag.length + mid.length + 1)
    | _ => none
  else none

/-- The `reStackedTag = ([\s\S]*?)(</stackedTag[^>]*>)` search: the lazy
text group makes the engine take the earliest end-tag occurrence; returns
the text length and the end-tag length. -/
def findStackedEnd (tag : List Char) : List Char → Option (Nat × Nat)
  | [] =>
    match tryMatchEndAt tag [] with
    | some n => some (0, n)
    | none => none
  | c :: t =>
    match tryMatchEndAt tag (c :: t) with
    | some n => some (0, n)
    | none => (findStackedEnd tag t).map (fun r => (r.1 + 1, r.2))

/-- `comment = ^<!\--` as a test. -/
def commentTest (html : List Char) : Bool :=
  ("<!--".toList).isPrefixOf html

/-- `conditionalComment = ^<!\[` as a test. -/
def conditionalTest (html : List Char) : Bool :=
  ("<![".toList).isPrefixOf html

/-- The inner while loop of the text phase: starting from the first `<`,
keep skipping `<` occurrences that do not open an end tag, a start tag, a
comment or a conditional comment (`< in plain text, be forgiving`). -/
def findTextEnd (o : ParseOptions) (html : List Char) (te : Nat) : Nat :=
  let rest := html.drop te
  if (matchEndTag o rest).isSome || (matchStartTagOpen o rest).isSome ||
      commentTest rest || conditionalTest rest then te
  else
    match hn : charIdx '<' (rest.drop 1) with
    | none => te
    | some n0 => findTextEnd o html (te + (n0 + 1))
termination_by html.length - te
decreasing_by
  have h1 := charIdx_lt_length '<' ((html.drop te).drop 1) n0 hn
  simp only [List.length_drop] at h1
  omega

/-- The mutable state of the `parseHTML` while loop: the remaining input,
the index into the original input, the open-tag stack (top at the head),
`lastTag`, and the callback invocations recorded so far. -/
structure PState where
  html : List Char
  index : Nat
  stack : List StackTag
  lastTag : Option (List Char)
  events : List PEvent
  deriving Repr, DecidableEq

/-- The `Comment:` handler: on `<!--`, if `-->` exists, emit the comment
(when comments are kept), advance past it and continue; otherwise fall
through. -/
def tryCommentH (o : ParseOptions) (st : PState) : Option PState :=
  if commentTest st.html then
    match findSubstr ("-->".toList) st.html with
    | some ce =>
      let evs := if o.shouldKeepComment then
          [PEvent.commentE (substringJS st.html 4 ce) st.index
            (st.index + ce + 3)]
        else []
      some { st with
               html := st.html.drop (ce + 3),
               index := st.index + ce + 3,
               events := st.events ++ evs }
    | none => none
  else none

/-- The conditional-comment handler: on `<![`, if `]>` exists, silently
advance past it. -/
def tryCondH (st : PState) : Option PState :=
  if conditionalTest st.html then
    match findSubstr ("]>".toList) st.html with
    | some ce =>
      some { st with
               html := st.html.drop (ce + 2),
               index := st.index + ce + 2 }
    | none => none
  else none

/-- The `Doctype:` handler: advance past a doctype match. -/
def tryDoctypeH (st : PState) : Option PState :=
  match matchDoctype st.html with
  | some n =>
    some { st with html := st.html.drop n, index := st.index + n }
  | none => none

/-- The `End tag:` handler: on an end-tag match, advance past it and run
`parseEndTag` with the positions around it. -/
def tryEndTagH (o : ParseOptions) (st : PState) : Option PState :=
  match matchEndTag o st.html with
  | some (tagName, n) =>
    let curIndex := st.index
    let st2 := { st with html := st.html.drop n, index := st.index + n }
    let r := parseEndTag st2.stack st2.lastTag (some tagName) curIndex
      st2.index
    some { st2 with
             stack := r.1,
             lastTag := r.2.1,
             events := st2.events ++ r.2.2 }
  | none => none

/-- The text phase at the bottom of the main branch: gather the text up to
the effective tag start (`textEnd`, `none` for no `<` at all), advance past
it and emit `options.chars` with positions when it is nonempty. -/
def textPhase (o : ParseOptions) (st : PState) (textEnd : Option Nat) :
    PState :=
  match textEnd with
  | some te0 =>
    let text := st.html.take (findTextEnd o st.html te0)
    if text.isEmpty then st
    else
      { st with
          html := st.html.drop text.length,
          index := st.index + text.length,
          events := st.events ++ [PEvent.charsE text (some st.index)
            (some (st.index + text.length))] }
  | none =>
    let text := st.html
    if text.isEmpty then st
    else
      { st with
          html := st.html.drop text.length,
          index := st.index + text.length,
          events := st.events ++ [PEvent.charsE text (some st.index)
            (some (st.index + text.length))] }

/-- One iteration of the main (non-plaintext) branch.  The boolean is
false exactly on the `continue` paths, which skip the bottom-of-loop
`html === last` check.  A start-tag open with no close leaves its consumed
characters consumed (the source advanced `html` inside `parseStartTag`) and
falls to the text phase with the stale `textEnd = 0`. -/
def mainIter (o : ParseOptions) (st : PState) : PState × Bool :=
  let textEnd := charIdx '<' st.html
  if textEnd = some 0 then
    match tryCommentH o st with
    | some st2 => (st2, false)
    | none =>
      match tryCondH st with
      | some st2 => (st2, false)
      | none =>
        match tryDoctypeH st with
        | some st2 => (st2, false)
        | none =>
          match tryEndTagH o st with
          | some st2 => (st2, false)
          | none =>
            let ps := parseStartTag o st.html st.index
            let stA := { st with
                           html := st.html.drop ps.1,
                           index := st.index + ps.1 }
            match ps.2 with
            | some m =>
              let r := handleStartTag o stA.stack stA.lastTag m stA.index
              let stB := { stA with
                             stack := r.1,
                             lastTag := r.2.1,
                             events := stA.events ++ r.2.2 }
              let stC :=
                if shouldIgnoreFirstNewlineF m.tagName stB.html then
                  { stB with
                      html := stB.html.drop 1,
                      index := stB.index + 1 }
                else stB
              (stC, false)
            | none => (textPhase o stA (some 0), true)
  else (textPhase o st textEnd, true)

/-- One iteration of the plaintext branch (lastTag is script/style/
textarea): find the earliest matching end tag; with no match nothing is
consumed and `parseEndTag` still runs; with a match the text is emitted via
the one-argument `options.chars` (after the vestigial unwrapping and the
first-newline trim) and the end tag is parsed. -/
def plaintextIter (st : PState) : PState :=
  let stackedTag := lowerChars (st.lastTag.getD [])
  match findStackedEnd stackedTag st.html with
  | none =>
    let r := parseEndTag st.stack st.lastTag (some stackedTag) st.index
      st.index
    { st with stack := r.1, lastTag := r.2.1, events := st.events ++ r.2.2 }
  | some (textLen, endLen) =>
    let text0 := st.html.take textLen
    let text1 :=
      if !(isPlainTextElement stackedTag) &&
          stackedTag ≠ "noscript".toList then stripWrapped text0
      else text0
    let text2 := if shouldIgnoreFirstNewlineF stackedTag text1 then
        text1.drop 1
      else text1
    let consumed := textLen + endLen
    let st2 := { st with
                   html := st.html.drop consumed,
                   index := st.index + consumed,
                   events := st.events ++ [PEvent.charsE text2 none none] }
    let r := parseEndTag st2.stack st2.lastTag (some stackedTag)
      (st2.index - endLen) st2.index
    { st2 with
        stack := r.1,
        lastTag := r.2.1,
        events := st2.events ++ r.2.2 }

/-- The body of one while-loop iteration, without the bottom-of-loop
`html === last` check; the boolean says whether that check is reached
(false exactly on the main branch's `continue` paths). -/
def iterBody (o : ParseOptions) (st : PState) : PState × Bool :=
  let pt := match st.lastTag with
    | some t => isPlainTextElement t
    | none => false
  if pt then (plaintextIter st, true) else mainIter o st

/-- One full while-loop iteration: run the body, then — when the bottom
check is reached and no progress was made (`html === last`) — emit the
whole remainder via the one-argument `options.chars`, warn about the
mal-formatted tag when the stack is empty, and report the break. -/
def parseStep (o : ParseOptions) (st : PState) : PState × Bool :=
  let r := iterBody o st
  if r.2 && (r.1.html == st.html) then
    ({ r.1 with events := r.1.events ++
        PEvent.charsE r.1.html none none ::
          (if r.1.stack.isEmpty then
            [PEvent.warnE (.malformedEnd r.1.html)]
          else []) }, true)
  else (r.1, false)

/-- The fueled `while (html)` loop: stop when the input is exhausted or the
body breaks. -/
def parseRun (o : ParseOptions) : Nat → PState → Option PState
  | 0, _ => none
  | fuel + 1, st =>
    if st.html.isEmpty then some st
    else
      let r := parseStep o st
      if r.2 then some r.1 else parseRun o fuel r.1

/-- `parseHTML (html, options)`: run the loop from the initial state, then
`parseEndTag()` cleans up any remaining tags; the result is the recorded
sequence of callback invocations. -/
def parseHTML (o : ParseOptions) (html : List Char) :
    Option (List PEvent) :=
  (parseRun o (html.length + 1)
      { html := html, index := 0, stack := [], lastTag := none,
        events := [] }).map (fun st =>
    let r := parseEndTag st.stack st.lastTag none st.index st.index
    st.events ++ r.2.2)

theorem commentTest_length (html : List Char) (h : commentTest html = true) :
    4 ≤ html.length := by
  rw [commentTest] at h
  have hp := List.isPrefixOf_iff_prefix.mp h
  have h2 := hp.length_le
  have h3 : ("<!--".toList).length = 4 := rfl
  omega

theorem conditionalTest_length (html : List Char)
    (h : conditionalTest html = true) : 3 ≤ html.length := by
  rw [conditionalTest] at h
  have hp := List.isPrefixOf_iff_prefix.mp h
  have h2 := hp.length_le
  have h3 : ("<![".toList).length = 3 := rfl
  omega

theorem matchStartTagOpen_pos (o : ParseOptions) (l : List Char)
    (t : List Char) (n : Nat) (h : matchStartTagOpen o l = some (t, n)) :
    1 ≤ n ∧ 1 ≤ l.length := by
  unfold matchStartTagOpen at h
  split at h
  · rw [Option.map_eq_some'] at h
    obtain ⟨p, hp, heq⟩ := h
    have h2 : p.2 + 1 = n := congrArg Prod.snd heq
    simp only [List.length_cons]
    omega
  · exact Option.noConfusion h

theorem matchEndTag_pos (o : ParseOptions) (l : List Char) (t : List Char)
    (n : Nat) (h : matchEndTag o l = some (t, n)) :
    1 ≤ n ∧ 1 ≤ l.length := by
  unfold matchEndTag at h
  split at h
  · simp only [] at h
    split at h
    · split at h
      · injection h with h2
        have h3 : n = 2 + _ + _ + 1 := (congrArg Prod.snd h2).symm
        simp only [List.length_cons]
        omega
      · exact Option.noConfusion h
    · exact Option.noConfusion h
  · exact Option.noConfusion h

theorem matchDoctype_pos (l : List Char) (n : Nat)
    (h : matchDoctype l = some n) : 1 ≤ n ∧ 1 ≤ l.length := by
  unfold matchDoctype at h
  by_cases hcond : (lowerChars (l.take 10) == "<!doctype ".toList) = true
  · rw [if_pos hcond] at h
    simp only [] at h
    split at h
    · exact Option.noConfusion h
    · split at h
      · injection h with h2
        have h3 : lowerChars (l.take 10) = "<!doctype ".toList :=
          beq_iff_eq.mp hcond
        have h4 : (lowerChars (l.take 10)).length = (l.take 10).length := by
          simp [lowerChars]
        have h5 : ("<!doctype ".toList).length = 10 := rfl
        have h6 := congrArg List.length h3
        have h7 : (l.take 10).length = min 10 l.length := List.length_take ..
        constructor
        · omega
        · omega
      · exact Option.noConfusion h
  · rw [if_neg hcond] at h
    exact Option.noConfusion h

theorem parseStartTag_pos (o : ParseOptions) (html : List Char) (idx : Nat) :
    ((parseStartTag o html idx).1 = 0 ∧
      (parseStartTag o html idx).2 = none) ∨
    (1 ≤ (parseStartTag o html idx).1 ∧ 1 ≤ html.length) := by
  unfold parseStartTag
  cases ho : matchStartTagOpen o html with
  | none =>
    left
    exact ⟨rfl, rfl⟩
  | some p =>
    obtain ⟨t, k0⟩ := p
    right
    obtain ⟨hk, hl⟩ := matchStartTagOpen_pos o html t k0 ho
    simp only []
    cases hr : (parseStartTagLoop (html.drop k0) []).2.2 with
    | some q =>
      obtain ⟨slash, cl⟩ := q
      simp only []
      exact ⟨by omega, hl⟩
    | none =>
      simp only []
      exact ⟨by omega, hl⟩

theorem tryCommentH_spec (o : ParseOptions) (st st2 : PState)
    (h : tryCommentH o st = some st2) :
    st2.html.length < st.html.length ∧
    ∃ pre, st2.events = st.events ++ pre := by
  unfold tryCommentH at h
  by_cases hc : commentTest st.html = true
  · rw [if_pos hc] at h
    cases hf : findSubstr ("-->".toList) st.html with
    | none =>
      rw [hf] at h
      exact Option.noConfusion h
    | some ce =>
      rw [hf] at h
      simp only [] at h
      injection h with h2
      have h4 := commentTest_length st.html hc
      rw [← h2]
      constructor
      · show (st.html.drop (ce + 3)).length < st.html.length
        simp only [List.length_drop]
        omega
      · exact ⟨_, rfl⟩
  · rw [if_neg hc] at h
    exact Option.noConfusion h

theorem tryCondH_spec (st st2 : PState) (h : tryCondH st = some st2) :
    st2.html.length < st.html.length ∧
    ∃ pre, st2.events = st.events ++ pre := by
  unfold tryCondH at h
  by_cases hc : conditionalTest st.html = true
  · rw [if_pos hc] at h
    cases hf : findSubstr ("]>".toList) st.html with
    | none =>
      rw [hf] at h
      exact Option.noConfusion h
    | some ce =>
      rw [hf] at h
      injection h with h2
      have h4 := conditionalTest_length st.html hc
      rw [← h2]
      constructor
      · show (st.html.drop (ce + 2)).length < st.html.length
        simp only [List.length_drop]
        omega
      · exact ⟨[], by simp⟩
  · rw [if_neg hc] at h
    exact Option.noConfusion h

theorem tryDoctypeH_spec (st st2 : PState) (h : tryDoctypeH st = some st2) :
    st2.html.length < st.html.length ∧
    ∃ pre, st2.events = st.events ++ pre := by
  unfold tryDoctypeH at h
  cases hm : matchDoctype st.html with
  | none =>
    rw [hm] at h
    exact Option.noConfusion h
  | some n =>
    rw [hm] at h
    injection h with h2
    obtain ⟨h3, h4⟩ := matchDoctype_pos st.html n hm
    rw [← h2]
    constructor
    · show (st.html.drop n).length < st.html.length
      simp only [List.length_drop]
      omega
    · exact ⟨[], by simp⟩

theorem tryEndTagH_spec (o : ParseOptions) (st st2 : PState)
    (h : tryEndTagH o st = some st2) :
    st2.html.length < st.html.length ∧
    ∃ pre, st2.events = st.events ++ pre := by
  unfold tryEndTagH at h
  cases hm : matchEndTag o st.html with
  | none =>
    rw [hm] at h
    exact Option.noConfusion h
  | some p =>
    obtain ⟨tagName, n⟩ := p
    rw [hm] at h
    simp only [] at h
    injection h with h2
    obtain ⟨h3, h4⟩ := matchEndTag_pos o st.html tagName n hm
    rw [← h2]
    constructor
    · show (st.html.drop n).length < st.html.length
      simp only [List.length_drop]
      omega
    · exact ⟨_, rfl⟩

theorem textPhase_spec (o : ParseOptions) (st : PState) (te : Option Nat) :
    (textPhase o st te = st ∨
      (textPhase o st te).html.length < st.html.length) ∧
    ∃ pre, (textPhase o st te).events = st.events ++ pre := by
  unfold textPhase
  cases te with
  | some te0 =>
    simp only []
    by_cases he : (st.html.take (findTextEnd o st.html te0)).isEmpty = true
    · rw [if_pos he]
      exact ⟨Or.inl rfl, [], by simp⟩
    · rw [if_neg he]
      constructor
      · right
        show (st.html.drop
          (st.html.take (findTextEnd o st.html te0)).length).length <
            st.html.length
        have h1 : st.html.take (findTextEnd o st.html te0) ≠ [] := by
          simpa using he
        have h2 : 0 <
            (st.html.take (findTextEnd o st.html te0)).length :=
          List.length_pos.mpr h1
        have h3 := List.length_take (findTextEnd o st.html te0) st.html
        simp only [List.length_drop]
        omega
      · exact ⟨_, rfl⟩
  | none =>
    simp only []
    by_cases he : st.html.isEmpty = true
    · rw [if_pos he]
      exact ⟨Or.inl rfl, [], by simp⟩
    · rw [if_neg he]
      constructor
      · right
        show (st.html.drop st.html.length).length < st.html.length
        have h1 : st.html ≠ [] := by simpa using he
        have h2 : 0 < st.html.length := List.length_pos.mpr h1
        simp only [List.length_drop]
        omega
      · exact ⟨_, rfl⟩

theorem tryMatchEndAt_pos (tag : List Char) (l : List Char) (n : Nat)
    (h : tryMatchEndAt tag l = some n) : 1 ≤ n ∧ 2 ≤ l.length := by
  unfold tryMatchEndAt at h
  by_cases hp : (("</".toList ++ tag).isPrefixOf (lowerChars l)) = true
  · rw [if_pos hp] at h
    simp only [] at h
    split at h
    · injection h with h2
      constructor
      · omega
      · have hpf := List.isPrefixOf_iff_prefix.mp hp
        have h3 := hpf.length_le
        have h6 : ("</".toList).length = 2 := rfl
        have h7 := List.length_append ("</".toList) tag
        have h8 : (lowerChars l).length = l.length := by simp [lowerChars]
        omega
    · exact Option.noConfusion h
  · rw [if_neg hp] at h
    exact Option.noConfusion h

theorem findStackedEnd_pos (tag : List Char) :
    ∀ (l : List Char) (a b : Nat), findStackedEnd tag l = some (a, b) →
      1 ≤ b ∧ a + 1 ≤ l.length := by
  intro l
  induction l with
  | nil =>
    intro a b h
    have h0 : tryMatchEndAt tag ([] : List Char) = none := rfl
    rw [findStackedEnd, h0] at h
    exact Option.noConfusion h
  | cons c t ih =>
    intro a b h
    rw [findStackedEnd] at h
    cases hm : tryMatchEndAt tag (c :: t) with
    | some n =>
      rw [hm] at h
      simp only [] at h
      injection h with h2
      injection h2 with h3 h4
      obtain ⟨h5, h6⟩ := tryMatchEndAt_pos tag (c :: t) n hm
      constructor
      · omega
      · omega
    | none =>
      rw [hm] at h
      simp only [] at h
      rw [Option.map_eq_some'] at h
      obtain ⟨⟨a2, b2⟩, h2, h3⟩ := h
      injection h3 with h4 h5
      obtain ⟨h6, h7⟩ := ih a2 b2 h2
      simp only [List.length_cons]
      omega

theorem plaintextIter_spec (st : PState) :
    ((plaintextIter st).html = st.html ∨
      (plaintextIter st).html.length < st.html.length) ∧
    ∃ pre, (plaintextIter st).events = st.events ++ pre := by
  unfold plaintextIter
  simp only []
  cases hf : findStackedEnd (lowerChars (st.lastTag.getD [])) st.html with
  | none =>
    simp only []
    exact ⟨Or.inl trivial, _, rfl⟩
  | some p =>
    obtain ⟨tl, el⟩ := p
    simp only []
    obtain ⟨hb, hl⟩ :=
      findStackedEnd_pos (lowerChars (st.lastTag.getD [])) st.html tl el hf
    constructor
    · right
      show (st.html.drop (tl + el)).length < st.html.length
      simp only [List.length_drop]
      omega
    · simp only [List.append_assoc]
      exact ⟨_, rfl⟩
theorem mainIter_spec (o : ParseOptions) (st : PState) :
    (((mainIter o st).2 = true ∧ (mainIter o st).1.html = st.html) ∨
      (mainIter o st).1.html.length < st.html.length) ∧
    ∃ pre, (mainIter o st).1.events = st.events ++ pre := by
  unfold mainIter
  simp only []
  by_cases h0 : charIdx '<' st.html = some 0
  · rw [if_pos h0]
    cases h1 : tryCommentH o st with
    | some st2 =>
      simp only []
      obtain ⟨ha, hb⟩ := tryCommentH_spec o st st2 h1
      exact ⟨Or.inr ha, hb⟩
    | none =>
      simp only []
      cases h2 : tryCondH st with
      | some st2 =>
        simp only []
        obtain ⟨ha, hb⟩ := tryCondH_spec st st2 h2
        exact ⟨Or.inr ha, hb⟩
      | none =>
        simp only []
        cases h3 : tryDoctypeH st with
        | some st2 =>
          simp only []
          obtain ⟨ha, hb⟩ := tryDoctypeH_spec st st2 h3
          exact ⟨Or.inr ha, hb⟩
        | none =>
          simp only []
          cases h4 : tryEndTagH o st with
          | some st2 =>
            simp only []
            obtain ⟨ha, hb⟩ := tryEndTagH_spec o st st2 h4
            exact ⟨Or.inr ha, hb⟩
          | none =>
            simp only []
            cases h5 : (parseStartTag o st.html st.index).2 with
            | some m =>
              simp only []
              rcases parseStartTag_pos o st.html st.index with
                ⟨hz, hnone⟩ | ⟨hk, hl⟩
              · rw [h5] at hnone
                exact Option.noConfusion hnone
              · constructor
                · right
                  by_cases hn : shouldIgnoreFirstNewlineF m.tagName
                      (st.html.drop (parseStartTag o st.html st.index).1) =
                      true
                  · rw [if_pos hn]
                    show ((st.html.drop
                        (parseStartTag o st.html st.index).1).drop 1).length <
                      st.html.length
                    simp only [List.length_drop]
                    omega
                  · rw [if_neg hn]
                    show (st.html.drop
                        (parseStartTag o st.html st.index).1).length <
                      st.html.length
                    simp only [List.length_drop]
                    omega
                · by_cases hn : shouldIgnoreFirstNewlineF m.tagName
                      (st.html.drop (parseStartTag o st.html st.index).1) =
                      true
                  · rw [if_pos hn]
                    exact ⟨_, rfl⟩
                  · rw [if_neg hn]
                    exact ⟨_, rfl⟩
            | none =>
              simp only []
              obtain ⟨hp, hev⟩ := textPhase_spec o
                { st with
                    html := st.html.drop (parseStartTag o st.html st.index).1,
                    index := st.index + (parseStartTag o st.html st.index).1 }
                (some 0)
              constructor
              · rcases hp with heq | hlt
                · rcases parseStartTag_pos o st.html st.index with
                    ⟨hz, _⟩ | ⟨hk, hl⟩
                  · left
                    refine ⟨trivial, ?_⟩
                    rw [heq]
                    show st.html.drop (parseStartTag o st.html st.index).1 =
                      st.html
                    rw [hz, List.drop_zero]
                  · right
                    rw [heq]
                    show (st.html.drop
                        (parseStartTag o st.html st.index).1).length <
                      st.html.length
                    simp only [List.length_drop]
                    omega
                · right
                  refine lt_of_lt_of_le hlt ?_
                  show (st.html.drop
                      (parseStartTag o st.html st.index).1).length ≤
                    st.html.length
                  simp only [List.length_drop]
                  omega
              · rcases hev with ⟨pre, hpre⟩
                refine ⟨pre, ?_⟩
                rw [hpre]
  · rw [if_neg h0]
    obtain ⟨hp, hev⟩ := textPhase_spec o st (charIdx '<' st.html)
    constructor
    · rcases hp with h | h
      · exact Or.inl ⟨rfl, by rw [h]⟩
      · exact Or.inr h
    · exact hev
theorem iterBody_spec (o : ParseOptions) (st : PState) :
    (((iterBody o st).2 = true ∧ (iterBody o st).1.html = st.html) ∨
      (iterBody o st).1.html.length < st.html.length) ∧
    ∃ pre, (iterBody o st).1.events = st.events ++ pre := by
  unfold iterBody
  simp only []
  by_cases hpt : (match st.lastTag with
      | some t => isPlainTextElement t
      | none => false) = true
  · rw [if_pos hpt]
    obtain ⟨h1, h2⟩ := plaintextIter_spec st
    constructor
    · rcases h1 with h | h
      · exact Or.inl ⟨rfl, h⟩
      · exact Or.inr h
    · exact h2
  · rw [if_neg hpt]
    exact mainIter_spec o st

theorem parseStep_spec (o : ParseOptions) (st : PState) :
    (parseStep o st).1.html.length < st.html.length ∨
    ((parseStep o st).2 = true ∧ (parseStep o st).1.html = st.html ∧
      ∃ pre warn,
        (parseStep o st).1.events =
          st.events ++ pre ++ [PEvent.charsE st.html none none] ++ warn ∧
        (warn = [] ∨
          warn = [PEvent.warnE (WarnKind.malformedEnd st.html)])) := by
  unfold parseStep
  simp only []
  by_cases hb : ((iterBody o st).2 &&
      ((iterBody o st).1.html == st.html)) = true
  · rw [if_pos hb]
    right
    rw [Bool.and_eq_true] at hb
    obtain ⟨hb1, hb2⟩ := hb
    have heq : (iterBody o st).1.html = st.html := eq_of_beq hb2
    obtain ⟨_, pre, hpre⟩ := iterBody_spec o st
    refine ⟨rfl, heq, pre,
      (if (iterBody o st).1.stack.isEmpty then
        [PEvent.warnE (WarnKind.malformedEnd st.html)] else []), ?_, ?_⟩
    · show (iterBody o st).1.events ++
        PEvent.charsE (iterBody o st).1.html none none ::
          (if (iterBody o st).1.stack.isEmpty then
            [PEvent.warnE (WarnKind.malformedEnd (iterBody o st).1.html)]
          else []) =
        st.events ++ pre ++ [PEvent.charsE st.html none none] ++
          (if (iterBody o st).1.stack.isEmpty then
            [PEvent.warnE (WarnKind.malformedEnd st.html)] else [])
      rw [hpre, heq]
      simp [List.append_assoc]
    · by_cases hs : (iterBody o st).1.stack.isEmpty = true
      · rw [if_pos hs]
        right
        rfl
      · rw [if_neg hs]
        left
        rfl
  · rw [if_neg hb]
    left
    rcases (iterBody_spec o st).1 with ⟨h1, h2⟩ | h1
    · exact absurd (by rw [h1, h2]; simp) hb
    · exact h1

theorem parseRun_total (o : ParseOptions) :
    ∀ (fuel : Nat) (st : PState), st.html.length < fuel →
      (parseRun o fuel st).isSome = true := by
  intro fuel
  induction fuel with
  | zero =>
    intro st h
    exact absurd h (Nat.not_lt_zero _)
  | succ n ih =>
    intro st h
    rw [parseRun]
    by_cases he : st.html.isEmpty = true
    · rw [if_pos he]
      rfl
    · rw [if_neg he]
      simp only []
      by_cases hbr : (parseStep o st).2 = true
      · rw [if_pos hbr]
        rfl
      · rw [if_neg hbr]
        apply ih
        rcases parseStep_spec o st with h1 | h1
        · omega
        · exact absurd h1.1 hbr

/-- C9: parseHTML terminates on every input string and never throws on
malformed markup: every iteration of its main loop either consumes at least
one character of the remaining input, or detects that no progress was made
(html === last), in which case the entire remainder is emitted as text via
options.chars, at most a warning is issued, and the loop exits. -/
theorem parseHTML_graceful (o : ParseOptions) (html : List Char) :
    (parseHTML o html).isSome = true ∧
    ∀ st : PState,
      (parseStep o st).1.html.length < st.html.length ∨
      ((parseStep o st).2 = true ∧ (parseStep o st).1.html = st.html ∧
        ∃ pre warn,
          (parseStep o st).1.events =
            st.events ++ pre ++ [PEvent.charsE st.html none none] ++ warn ∧
          (warn = [] ∨
            warn = [PEvent.warnE (WarnKind.malformedEnd st.html)])) := by
  constructor
  · unfold parseHTML
    have h := parseRun_total o (html.length + 1)
      { html := html, index := 0, stack := [], lastTag := none,
        events := [] } (Nat.lt_succ_self _)
    obtain ⟨st, hst⟩ := Option.isSome_iff_exists.mp h
    rw [hst]
    rfl
  · intro st
    exact parseStep_spec o st
end VueSpec
